import Mathlib

/-!
Verification development for a k-d tree and DBSCAN clustering engine
(Rust sources `src/kdtree.rs`, `src/dbscan.rs`).

The embedding is shallow: the generic `KdTreeItem` trait becomes a structure
of functions `KdItem`; its documented preconditions become the `KdLawful`
predicate; the arena-allocated tree becomes an inductive tree (the arena with
1-based indices is a memory-layout detail, `get_node` on a child index yields
exactly the recursively constructed subtree); Rust's `BinaryHeap` is modelled
by its underlying vector together with the sift operations of the standard
library; Rust panics (`expect`, division by zero) are modelled by `Option`,
with `none` meaning the call panics.  Machine integers are `Nat`; the only
place overflow/saturation matters is `NonZeroUsize::saturating_add`, modelled
explicitly with `usizeMax`.
-/

namespace KdDb

/-- Shallow embedding of the `KdTreeItem` trait (src/kdtree.rs lines 5-17):
an item type `T` with a measurement type `M`, offering per-depth comparison,
distance, and distance to the splitting axis. -/
structure KdItem (T : Type) (M : Type) where
  cmp_in_depth : T → T → Nat → Ordering
  distance : T → T → M
  distance_to_axis : T → T → Nat → M

variable {T : Type} {M : Type} [LinearOrder M]

/-- The documented preconditions on a `KdTreeItem` implementation
(src/kdtree.rs doc comments and spec section 3): `cmp_in_depth` is a total
order at each fixed depth, `distance` is symmetric with minimal
self-distance, and `distance_to_axis` is a lower bound on the distance to
any item lying on the other side of (or on) the splitting plane. -/
structure KdLawful (it : KdItem T M) : Prop where
  cmp_swap : ∀ a b d, it.cmp_in_depth a b d = (it.cmp_in_depth b a d).swap
  cmp_le_trans : ∀ a b c d, it.cmp_in_depth a b d ≠ Ordering.gt →
    it.cmp_in_depth b c d ≠ Ordering.gt → it.cmp_in_depth a c d ≠ Ordering.gt
  dist_symm : ∀ a b, it.distance a b = it.distance b a
  dist_self_le : ∀ a b c, it.distance a a ≤ it.distance b c
  axis_le_far : ∀ q b x d, it.cmp_in_depth q b d = Ordering.lt →
    it.cmp_in_depth x b d ≠ Ordering.lt → it.distance_to_axis q b d ≤ it.distance q x
  axis_le_near : ∀ q b x d, it.cmp_in_depth q b d ≠ Ordering.lt →
    it.cmp_in_depth x b d ≠ Ordering.gt → it.distance_to_axis q b d ≤ it.distance q x

/-- The k-d tree.  In the source a tree is a `Vec` arena of nodes with
`Option<NonZeroUsize>` child indices and an optional root index; `empty`
models a `None` index and `node` models the node reachable at an index,
with its `item`, `left_index` subtree and `right_index` subtree. -/
inductive Kdt (T : Type) where
  | empty : Kdt T
  | node (item : T) (left : Kdt T) (right : Kdt T) : Kdt T
deriving DecidableEq, Repr

/-- The comparator handed to `sort_unstable_by`, as a binary relation:
`a` may come before `b` when `cmp_in_depth(a, b, depth)` is not `Greater`. -/
def leD (it : KdItem T M) (d : Nat) (a b : T) : Prop :=
  it.cmp_in_depth a b d ≠ Ordering.gt

instance (it : KdItem T M) (d : Nat) : DecidableRel (leD it d) := fun a b => by
  unfold leD; infer_instance

/-- `construct_part` (src/kdtree.rs lines 148-183).  An empty slice gives no
node; a singleton gives a leaf; otherwise the slice is sorted by the depth-`d`
comparator (`sort_unstable_by`, modelled by a comparison sort), split at
`mid = len / 2` (`split_at_mut` + `split_first_mut`), and the two parts become
the left and right subtrees of the pivot.  The `[]` arm of the inner match is
unreachable (`mid < len`, so the dropped part is nonempty); in the source it
is the `expect("right split must exist")` panic. -/
def construct_part (it : KdItem T M) (items : List T) (d : Nat) : Kdt T :=
  match items with
  | [] => .empty
  | [x] => .node x .empty .empty
  | x :: y :: rest =>
    match hd : (List.insertionSort (leD it d) (x :: y :: rest)).drop
        ((x :: y :: rest).length / 2) with
    | [] => .empty
    | p :: right =>
      .node p
        (construct_part it
          ((List.insertionSort (leD it d) (x :: y :: rest)).take
            ((x :: y :: rest).length / 2)) (d + 1))
        (construct_part it right (d + 1))
termination_by items.length
decreasing_by
  · rw [List.length_take, List.length_insertionSort]
    simp only [List.length_cons]
    omega
  · have h1 := congrArg List.length hd
    rw [List.length_drop, List.length_insertionSort] at h1
    simp only [List.length_cons] at h1 ⊢
    omega

/-- `KdTree::construct` (src/kdtree.rs lines 76-83): build from the root at
depth 0. -/
def construct (it : KdItem T M) (items : List T) : Kdt T :=
  construct_part it items 0

/-- All items stored in a tree, root first. -/
def treeItems : Kdt T → List T
  | .empty => []
  | .node x l r => x :: (treeItems l ++ treeItems r)

/-- The structural invariant of the tree (spec section 3): at an internal
node at depth `d`, every item of the left subtree compares `Less` or `Equal`
(not `Greater`) to the node item, and every item of the right subtree
compares `Equal` or `Greater` (not `Less`). -/
def TreeInv (it : KdItem T M) : Kdt T → Nat → Prop
  | .empty, _ => True
  | .node x l r, d =>
    (∀ y ∈ treeItems l, it.cmp_in_depth y x d ≠ Ordering.gt) ∧
    (∀ y ∈ treeItems r, it.cmp_in_depth y x d ≠ Ordering.lt) ∧
    TreeInv it l (d + 1) ∧ TreeInv it r (d + 1)

/-- The left subtree of the root (`.empty` for an empty tree). -/
def Kdt.leftChild : Kdt T → Kdt T
  | .empty => .empty
  | .node _ l _ => l

/-- The right subtree of the root (`.empty` for an empty tree). -/
def Kdt.rightChild : Kdt T → Kdt T
  | .empty => .empty
  | .node _ _ r => r

/-!
`BinaryHeap<NeighborCandidate>` is modelled by its underlying vector of
`(item, distance)` pairs, max-heap ordered on the distance
(`NeighborCandidate`'s `Ord` compares only the measurement, src/kdtree.rs
lines 53-73).  `push`, `pop` and `peek` follow the Rust standard library:
`push` appends and sifts up; `pop` removes the last element, swaps it into
the root and sifts down to the bottom then back up; `peek` is the front of
the vector; iteration visits the underlying vector in order.  The sift
loops are written with an explicit fuel that strictly bounds the number of
iterations (the sift position moves strictly towards 0 resp. the bottom
each round), so the functions are structurally recursive.
-/

/-- Swap the elements at positions `i` and `j` (identity when out of range;
all call sites stay in range). -/
def heapSwap {α : Type} (l : List α) (i j : Nat) : List α :=
  match l[i]?, l[j]? with
  | some a, some b => (l.set i b).set j a
  | _, _ => l

/-- `BinaryHeap::sift_up(start, pos)`: move the element at `pos` towards the
root while it is strictly greater than its parent, stopping at `start`.
The fuel is always called with at least `pos + 1`, which bounds the number
of iterations. -/
def siftUpGo : Nat → List (T × M) → Nat → Nat → List (T × M)
  | 0, l, _, _ => l
  | fuel + 1, l, start, pos =>
    if pos ≤ start then l
    else
      match l[pos]?, l[(pos - 1) / 2]? with
      | some e, some p =>
        if e.2 ≤ p.2 then l
        else siftUpGo fuel (heapSwap l pos ((pos - 1) / 2)) start ((pos - 1) / 2)
      | _, _ => l

/-- `BinaryHeap::sift_down_to_bottom`, descent phase: move the hole to the
bottom of the heap, always towards the greater child (the right child on
ties, as in the standard library).  Returns the final position. -/
def siftDownGo : Nat → List (T × M) → Nat → List (T × M) × Nat
  | 0, l, pos => (l, pos)
  | fuel + 1, l, pos =>
    if 2 * pos + 1 ≤ l.length - 2 then
      match l[2 * pos + 1]?, l[2 * pos + 2]? with
      | some c1, some c2 =>
        siftDownGo fuel (heapSwap l pos (if c1.2 ≤ c2.2 then 2 * pos + 2 else 2 * pos + 1))
          (if c1.2 ≤ c2.2 then 2 * pos + 2 else 2 * pos + 1)
      | _, _ => (l, pos)
    else if 2 * pos + 1 = l.length - 1 then (heapSwap l pos (2 * pos + 1), 2 * pos + 1)
    else (l, pos)

/-- `BinaryHeap::sift_down_to_bottom(pos)`: descend to the bottom, then sift
back up with `start` being the original position. -/
def siftDownToBottom (l : List (T × M)) (pos : Nat) : List (T × M) :=
  match siftDownGo l.length l pos with
  | (l2, p) => siftUpGo (p + 1) l2 pos p

/-- `BinaryHeap::push`: append at the end and sift up from there. -/
def heapPush (l : List (T × M)) (c : T × M) : List (T × M) :=
  siftUpGo (l.length + 1) (l ++ [c]) 0 l.length

/-- `BinaryHeap::pop` (heap contents after the pop; the returned item is not
used by the search): remove the last element, and if the heap is still
nonempty swap that element into the root and sift it down. -/
def heapPop (l : List (T × M)) : List (T × M) :=
  match l.getLast?, l.dropLast with
  | none, _ => l
  | some _, [] => []
  | some last, rest => siftDownToBottom (rest.set 0 last) 0

/-- `BinaryHeap::peek`: the front of the underlying vector (the maximum). -/
def heapPeek (l : List (T × M)) : Option (T × M) :=
  l.head?

/-- The admission step of `find_nearest_n_depth` (src/kdtree.rs lines
111-118): push the visited node when the heap is not full, otherwise replace
the current worst when the node is strictly closer.  `none` models the
`peek().expect("must exist")` panic, reachable only with `max_candidates == 0`. -/
def heapOffer (maxc : Nat) (cands : List (T × M)) (c : T × M) :
    Option (List (T × M)) :=
  if cands.length < maxc then some (heapPush cands c)
  else
    match heapPeek cands with
    | none => none
    | some top =>
      if c.2 < top.2 then some (heapPush (heapPop cands) c)
      else some cands

/-- `KdTree::find_nearest_n_depth` (src/kdtree.rs lines 99-140).  Returns the
heap after visiting the subtree, or `none` when the traversal panics (the
`peek().expect("must exist")` calls, reachable exactly when
`max_candidates == 0` on a nonempty subtree).  The two arms of the match on
`cmp_in_depth(query, item, depth)` spell out the `(first, second)` subtree
choice of lines 121-124: `Less` explores left first, otherwise right first;
the second subtree is explored unconditionally while the heap is not full,
and otherwise only when `distance_to_axis(query, item, depth)` is strictly
below the current worst kept distance. -/
def find_nearest_n_depth (it : KdItem T M) (maxc : Nat) (q : T) :
    Kdt T → Nat → List (T × M) → Option (List (T × M))
  | .empty, _, cands => some cands
  | .node x l r, depth, cands =>
    match heapOffer maxc cands (x, it.distance q x) with
    | none => none
    | some cands1 =>
      match it.cmp_in_depth q x depth with
      | .lt =>
        match find_nearest_n_depth it maxc q l (depth + 1) cands1 with
        | none => none
        | some cands2 =>
          if cands2.length < maxc then find_nearest_n_depth it maxc q r (depth + 1) cands2
          else
            match heapPeek cands2 with
            | none => none
            | some top2 =>
              if it.distance_to_axis q x depth < top2.2 then
                find_nearest_n_depth it maxc q r (depth + 1) cands2
              else some cands2
      | _ =>
        match find_nearest_n_depth it maxc q r (depth + 1) cands1 with
        | none => none
        | some cands2 =>
          if cands2.length < maxc then find_nearest_n_depth it maxc q l (depth + 1) cands2
          else
            match heapPeek cands2 with
            | none => none
            | some top2 =>
              if it.distance_to_axis q x depth < top2.2 then
                find_nearest_n_depth it maxc q l (depth + 1) cands2
              else some cands2

/-- `KdTree::find_nearest_n` (src/kdtree.rs lines 93-97): run the search from
the root with an empty heap, then return `candidates.iter().rev().map(|c| c.0)`,
i.e. the underlying heap vector reversed, projected to items.  `none` models
a panic. -/
def find_nearest_n (it : KdItem T M) (t : Kdt T) (q : T) (max_count : Nat) :
    Option (List T) :=
  (find_nearest_n_depth it max_count q t 0 []).map (fun cands => cands.reverse.map Prod.fst)

/-- `KdTree::find_nearest` (src/kdtree.rs lines 89-91):
`find_nearest_n(query, 1).into_iter().next()`.  The outer `Option` models a
panic, the inner one is the function's own `Option<&T>` result. -/
def find_nearest (it : KdItem T M) (t : Kdt T) (q : T) : Option (Option T) :=
  (find_nearest_n it t q 1).map List.head?

/-- Modelled from the spec: `KdTree::find_range_n` is called at
src/dbscan.rs line 49 but its definition is not part of the sources under
src/.  Spec section 4.1: depth-first traversal; at each node include the
item when `distance(item, query) <= epsilon`; always descend into the
`first` (query-side) child; descend into the `second` child iff
`axis_distance <= epsilon`; the first/second choice mirrors the
nearest-neighbor search (`Less` goes left first, otherwise right first). -/
def find_range_n (it : KdItem T M) : Kdt T → T → M → Nat → List T
  | .empty, _, _, _ => []
  | .node x l r, q, eps, depth =>
    (if it.distance x q ≤ eps then [x] else []) ++
      match it.cmp_in_depth q x depth with
      | .lt =>
        find_range_n it l q eps (depth + 1) ++
          (if it.distance_to_axis q x depth ≤ eps then find_range_n it r q eps (depth + 1)
           else [])
      | _ =>
        find_range_n it r q eps (depth + 1) ++
          (if it.distance_to_axis q x depth ≤ eps then find_range_n it l q eps (depth + 1)
           else [])

/-!
DBSCAN driver (src/dbscan.rs).  The label and visited vectors of length `n`
are modelled as functions `Fin n → _`; the `Indexed<'a, T>` wrapper becomes
a pair `Fin n × T` whose `KdTreeItem` operations delegate to the inner item;
the `VecDeque` worklist of neighbor groups is a list of lists, popped at the
front, pushed at the back.
-/

/-- The per-position DBSCAN label (src/dbscan.rs lines 5-9).  `Cluster`
carries the `NonZeroUsize` id as a `Nat` (positivity of assigned ids is
proved, not assumed). -/
inductive DbscanLabel where
  | Cluster (id : Nat)
  | Noize
deriving DecidableEq, Repr

/-- `usize::MAX`, the saturation point of `NonZeroUsize::saturating_add`. -/
def usizeMax : Nat := 2 ^ 64 - 1

/-- `cluster_id.saturating_add(1)` (src/dbscan.rs line 76). -/
def satAdd1 (c : Nat) : Nat := min (c + 1) usizeMax

/-- The `KdTreeItem` impl for `Indexed<'_, T>` (src/dbscan.rs lines 14-28):
all three operations delegate to the inner item. -/
def indexedItem (it : KdItem T M) (n : Nat) : KdItem (Fin n × T) M :=
  ⟨fun a b d => it.cmp_in_depth a.2 b.2 d,
   fun a b => it.distance a.2 b.2,
   fun a b d => it.distance_to_axis a.2 b.2 d⟩

variable {n : Nat}

/-- Number of positions whose `visited` flag is still `false` (termination
measure of the cluster expansion). -/
def unvisitedCount (visited : Fin n → Bool) : Nat :=
  (Finset.univ.filter fun i => visited i = false).card

/-- The body of `for neighbor in neighbors` (src/dbscan.rs lines 59-73),
acting on `(labels, visited, pushed_groups)`: an unvisited neighbor is
marked visited, labelled with the current cluster, and its own neighborhood
is pushed when it is a core point; then any neighbor still labelled `Noize`
is upgraded to the current cluster. -/
def processNeighbor (jt : KdItem (Fin n × T) M) (tree : Kdt (Fin n × T)) (eps : M)
    (min_items : Nat) (cluster : Nat)
    (s : (Fin n → DbscanLabel) × (Fin n → Bool) × List (List (Fin n × T)))
    (nb : Fin n × T) :
    (Fin n → DbscanLabel) × (Fin n → Bool) × List (List (Fin n × T)) :=
  let s1 :=
    if s.2.1 nb.1 then s
    else
      (Function.update s.1 nb.1 (DbscanLabel.Cluster cluster),
       Function.update s.2.1 nb.1 true,
       if min_items ≤ (find_range_n jt tree nb eps 0).length then
         s.2.2 ++ [find_range_n jt tree nb eps 0]
       else s.2.2)
  if s1.1 nb.1 = DbscanLabel.Noize then
    (Function.update s1.1 nb.1 (DbscanLabel.Cluster cluster), s1.2.1, s1.2.2)
  else s1

/-- One dequeued neighbor group processed in order (the `for` loop). -/
def processGroup (jt : KdItem (Fin n × T) M) (tree : Kdt (Fin n × T)) (eps : M)
    (min_items : Nat) (cluster : Nat) (g : List (Fin n × T))
    (s : (Fin n → DbscanLabel) × (Fin n → Bool) × List (List (Fin n × T))) :
    (Fin n → DbscanLabel) × (Fin n → Bool) × List (List (Fin n × T)) :=
  g.foldl (processNeighbor jt tree eps min_items cluster) s

lemma unvisitedCount_update_lt (visited : Fin n → Bool) (i : Fin n)
    (h : visited i = false) :
    unvisitedCount (Function.update visited i true) < unvisitedCount visited := by
  unfold unvisitedCount
  have hsub : (Finset.univ.filter fun j => Function.update visited i true j = false) =
      (Finset.univ.filter fun j => visited j = false).erase i := by
    ext j
    by_cases hji : j = i <;>
      simp [Function.update, hji, h]
  rw [hsub]
  have hmem : i ∈ (Finset.univ.filter fun j => visited j = false) := by simp [h]
  calc ((Finset.univ.filter fun j => visited j = false).erase i).card
      < (Finset.univ.filter fun j => visited j = false).card :=
        Finset.card_erase_lt_of_mem hmem

lemma processNeighbor_step (jt : KdItem (Fin n × T) M) (tree : Kdt (Fin n × T)) (eps : M)
    (min_items : Nat) (cluster : Nat)
    (s : (Fin n → DbscanLabel) × (Fin n → Bool) × List (List (Fin n × T)))
    (nb : Fin n × T) :
    ((processNeighbor jt tree eps min_items cluster s nb).2.1 = s.2.1 ∧
        (processNeighbor jt tree eps min_items cluster s nb).2.2 = s.2.2) ∨
      unvisitedCount (processNeighbor jt tree eps min_items cluster s nb).2.1 <
        unvisitedCount s.2.1 := by
  unfold processNeighbor
  by_cases hv : s.2.1 nb.1
  · by_cases hl : s.1 nb.1 = DbscanLabel.Noize <;> simp [hv, hl]
  · right
    simp only [Bool.not_eq_true] at hv
    have hlt := unvisitedCount_update_lt s.2.1 nb.1 hv
    by_cases hl : Function.update s.1 nb.1 (DbscanLabel.Cluster cluster) nb.1 =
        DbscanLabel.Noize <;>
      simp [hv, hl, hlt]

lemma processGroup_le (jt : KdItem (Fin n × T) M) (tree : Kdt (Fin n × T)) (eps : M)
    (min_items : Nat) (cluster : Nat) (g : List (Fin n × T)) :
    ∀ s, unvisitedCount (processGroup jt tree eps min_items cluster g s).2.1 ≤
      unvisitedCount s.2.1 := by
  induction g with
  | nil => intro s; exact le_rfl
  | cons a g ih =>
    intro s
    have h1 := processNeighbor_step jt tree eps min_items cluster s a
    have h2 := ih (processNeighbor jt tree eps min_items cluster s a)
    unfold processGroup at h2 ⊢
    simp only [List.foldl_cons]
    rcases h1 with ⟨hv, _⟩ | hlt
    · rw [hv] at h2; exact h2
    · exact le_trans h2 (le_of_lt hlt)

lemma processGroup_step (jt : KdItem (Fin n × T) M) (tree : Kdt (Fin n × T)) (eps : M)
    (min_items : Nat) (cluster : Nat) (g : List (Fin n × T)) :
    ∀ s, ((processGroup jt tree eps min_items cluster g s).2.1 = s.2.1 ∧
        (processGroup jt tree eps min_items cluster g s).2.2 = s.2.2) ∨
      unvisitedCount (processGroup jt tree eps min_items cluster g s).2.1 <
        unvisitedCount s.2.1 := by
  induction g with
  | nil => intro s; left; exact ⟨rfl, rfl⟩
  | cons a g ih =>
    intro s
    have h1 := processNeighbor_step jt tree eps min_items cluster s a
    have h2 := ih (processNeighbor jt tree eps min_items cluster s a)
    have hle := processGroup_le jt tree eps min_items cluster g
      (processNeighbor jt tree eps min_items cluster s a)
    unfold processGroup at h2 ⊢
    simp only [List.foldl_cons]
    rcases h1 with ⟨hv, hg⟩ | hlt
    · rcases h2 with ⟨hv2, hg2⟩ | hlt2
      · left; exact ⟨hv2.trans hv, hg2.trans hg⟩
      · right; rw [hv] at hlt2; exact hlt2
    · right; exact lt_of_le_of_lt hle hlt

/-- The `while let Some(neighbors) = core_neighbor_groups.pop_front()` loop
(src/dbscan.rs lines 58-74): dequeue the front group, process its neighbors
in order (newly found core neighborhoods are enqueued at the back), repeat
until the worklist is empty. -/
def expand (jt : KdItem (Fin n × T) M) (tree : Kdt (Fin n × T)) (eps : M)
    (min_items : Nat) (cluster : Nat) :
    (Fin n → DbscanLabel) → (Fin n → Bool) → List (List (Fin n × T)) →
      (Fin n → DbscanLabel) × (Fin n → Bool)
  | labels, visited, [] => (labels, visited)
  | labels, visited, g :: rest =>
    expand jt tree eps min_items cluster
      (processGroup jt tree eps min_items cluster g (labels, visited, [])).1
      (processGroup jt tree eps min_items cluster g (labels, visited, [])).2.1
      (rest ++ (processGroup jt tree eps min_items cluster g (labels, visited, [])).2.2)
termination_by labels visited groups => (unvisitedCount visited, groups.length)
decreasing_by
  rcases processGroup_step jt tree eps min_items cluster g (labels, visited, []) with
    ⟨hv, hg⟩ | hlt
  · rw [hv, hg]
    exact Prod.Lex.right _ (by simp)
  · exact Prod.Lex.left _ _ hlt

/-- The main `for item in &indexed_items` loop (src/dbscan.rs lines 43-78):
skip visited items, mark the item visited, query its neighborhood; a core
item founds a new cluster which is expanded through the worklist, after
which the cluster id is bumped with `saturating_add(1)`. -/
def dbscanLoop (jt : KdItem (Fin n × T) M) (tree : Kdt (Fin n × T)) (eps : M)
    (min_items : Nat) :
    List (Fin n × T) → Nat → (Fin n → DbscanLabel) → (Fin n → Bool) →
      (Fin n → DbscanLabel)
  | [], _, labels, _ => labels
  | item :: rest, c, labels, visited =>
    if visited item.1 then dbscanLoop jt tree eps min_items rest c labels visited
    else
      if min_items ≤ (find_range_n jt tree item eps 0).length then
        dbscanLoop jt tree eps min_items rest (satAdd1 c)
          (expand jt tree eps min_items c
            (Function.update labels item.1 (DbscanLabel.Cluster c))
            (Function.update visited item.1 true)
            [find_range_n jt tree item eps 0]).1
          (expand jt tree eps min_items c
            (Function.update labels item.1 (DbscanLabel.Cluster c))
            (Function.update visited item.1 true)
            [find_range_n jt tree item eps 0]).2
      else dbscanLoop jt tree eps min_items rest c labels
        (Function.update visited item.1 true)

/-- `dbscan` (src/dbscan.rs lines 30-81).  The input is wrapped as
`(position, item)` pairs, a tree is built over the wrapped items, and the
main loop labels every position.  `none` models the panic of
`VecDeque::with_capacity(indexed_items.len() / min_items)` when
`min_items == 0` (integer division by zero); it fires before any labelling. -/
def dbscan (it : KdItem T M) (items : List T) (eps : M) (min_items : Nat) :
    Option (List DbscanLabel) :=
  if min_items = 0 then none
  else
    some (List.ofFn (dbscanLoop (indexedItem it items.length)
      (construct (indexedItem it items.length)
        ((List.finRange items.length).map fun i => (i, items.get i)))
      eps min_items
      ((List.finRange items.length).map fun i => (i, items.get i))
      1 (fun _ => DbscanLabel.Noize) (fun _ => false)))

/-!  Facts about the sort comparator and the constructed tree. -/

variable {it : KdItem T M}

lemma leD_isTotal (hl : KdLawful it) (d : Nat) : IsTotal T (leD it d) := by
  constructor
  intro a b
  unfold leD
  have hs := hl.cmp_swap a b d
  cases hba : it.cmp_in_depth b a d <;> rw [hba] at hs <;> simp [hs, Ordering.swap]

lemma leD_isTrans (hl : KdLawful it) (d : Nat) : IsTrans T (leD it d) :=
  ⟨fun a b c => hl.cmp_le_trans a b c d⟩

lemma cmp_ne_lt_of_ne_gt (hl : KdLawful it) {x y : T} {d : Nat}
    (h : it.cmp_in_depth x y d ≠ Ordering.gt) : it.cmp_in_depth y x d ≠ Ordering.lt := by
  have hs := hl.cmp_swap y x d
  cases hxy : it.cmp_in_depth x y d <;> rw [hxy] at hs h <;>
    simp [hs, Ordering.swap] at *

lemma sorted_leD (hl : KdLawful it) (d : Nat) (l : List T) :
    List.Sorted (leD it d) (List.insertionSort (leD it d) l) := by
  haveI := leD_isTotal hl d
  haveI := leD_isTrans hl d
  exact List.sorted_insertionSort (leD it d) l

/-- The items of the constructed tree are a permutation of the input slice. -/
lemma treeItems_construct_part (it : KdItem T M) (items : List T) (d : Nat) :
    (treeItems (construct_part it items d)).Perm items := by
  induction items, d using construct_part.induct it with
  | case1 d => simp [construct_part, treeItems]
  | case2 d x => simp [construct_part, treeItems]
  | case3 d x y rest hd =>
    exfalso
    have h1 := congrArg List.length hd
    rw [List.length_drop, List.length_insertionSort] at h1
    simp only [List.length_cons, List.length_nil] at h1
    omega
  | case4 d x y rest p right hd ih1 ih2 =>
    rw [construct_part]
    split
    · rename_i heq
      rw [hd] at heq
      exact absurd heq (by simp)
    · rename_i p2 right2 heq
      rw [hd] at heq
      injection heq with h1 h2
      subst h1
      subst h2
      have hsplit : (List.insertionSort (leD it d) (x :: y :: rest)).take
            ((x :: y :: rest).length / 2) ++ p :: right =
          List.insertionSort (leD it d) (x :: y :: rest) := by
        rw [← hd]
        exact List.take_append_drop _ _
      simp only [treeItems]
      refine List.Perm.trans
        (List.Perm.trans (List.Perm.cons p (List.Perm.append ih1 ih2))
          List.perm_middle.symm) ?_
      rw [hsplit]
      exact List.perm_insertionSort _ _

/-- Elements of the constructed tree, as a membership fact. -/
lemma mem_treeItems_construct_part {items : List T} {d : Nat} {z : T} :
    z ∈ treeItems (construct_part it items d) ↔ z ∈ items :=
  (treeItems_construct_part it items d).mem_iff

/-- The amended structural invariant holds for every constructed tree: left
subtree items compare `Less` or `Equal` (never `Greater`) to the node item,
right subtree items compare `Equal` or `Greater` (never `Less`). -/
lemma treeInv_construct_part (hl : KdLawful it) (items : List T) (d : Nat) :
    TreeInv it (construct_part it items d) d := by
  induction items, d using construct_part.induct it with
  | case1 d => simp [construct_part, TreeInv]
  | case2 d x => simp [construct_part, TreeInv, treeItems]
  | case3 d x y rest hd =>
    rw [construct_part]
    split
    · exact trivial
    · rename_i p2 right2 heq
      rw [hd] at heq
      exact absurd heq (by simp)
  | case4 d x y rest p right hd ih1 ih2 =>
    rw [construct_part]
    split
    · exact trivial
    · rename_i p2 right2 heq
      rw [hd] at heq
      injection heq with h1 h2
      subst h1
      subst h2
      have hsorted := sorted_leD hl d (x :: y :: rest)
      have hdropSorted : List.Sorted (leD it d) (p :: right) := by
        rw [← hd]
        exact hsorted.sublist (List.drop_sublist _ _)
      refine ⟨?_, ?_, ih1, ih2⟩
      · intro z hz
        have hzTake : z ∈ (List.insertionSort (leD it d) (x :: y :: rest)).take
            ((x :: y :: rest).length / 2) := mem_treeItems_construct_part.1 hz
        have hpDrop : p ∈ (List.insertionSort (leD it d) (x :: y :: rest)).drop
            ((x :: y :: rest).length / 2) := by rw [hd]; exact List.mem_cons_self p right
        exact hsorted.rel_of_mem_take_of_mem_drop hzTake hpDrop
      · intro z hz
        have hzRight : z ∈ right := mem_treeItems_construct_part.1 hz
        have hrel : leD it d p z := (List.sorted_cons.1 hdropSorted).1 z hzRight
        exact cmp_ne_lt_of_ne_gt hl hrel

lemma treeInv_construct (hl : KdLawful it) (items : List T) :
    TreeInv it (construct it items) 0 :=
  treeInv_construct_part hl items 0

lemma mem_treeItems_construct {items : List T} {z : T} :
    z ∈ treeItems (construct it items) ↔ z ∈ items :=
  mem_treeItems_construct_part

/-- A nonempty input never constructs an empty tree. -/
lemma construct_part_ne_empty (it : KdItem T M) {items : List T} (h : items ≠ []) (d : Nat) :
    construct_part it items d ≠ Kdt.empty := by
  intro hEq
  have := treeItems_construct_part it items d
  rw [hEq] at this
  simp only [treeItems] at this
  exact h this.nil_eq.symm

/-!
A concrete lawful instantiation used for witnesses and counterexamples:
2-dimensional integer points with the Chebyshev (L∞) distance.  It satisfies
every `KdTreeItem` precondition: coordinate comparison is a total order at
each depth, the distance is a metric, and the coordinate difference on the
splitting axis is a lower bound on the distance to anything on the far side
of the splitting plane.
-/

/-- Three-way integer comparison (the `partial_cmp` of the coordinates). -/
def cmpInt (x y : ℤ) : Ordering :=
  if x < y then .lt else if x = y then .eq else .gt

lemma cmpInt_swap (x y : ℤ) : cmpInt x y = (cmpInt y x).swap := by
  unfold cmpInt
  split_ifs <;> first | rfl | omega

lemma cmpInt_ne_gt {x y : ℤ} : cmpInt x y ≠ Ordering.gt ↔ x ≤ y := by
  unfold cmpInt
  split_ifs <;> simp <;> omega

lemma cmpInt_eq_lt {x y : ℤ} : cmpInt x y = Ordering.lt ↔ x < y := by
  unfold cmpInt
  split_ifs <;> simp <;> omega

lemma cmpInt_ne_lt {x y : ℤ} : cmpInt x y ≠ Ordering.lt ↔ y ≤ x := by
  unfold cmpInt
  split_ifs <;> simp <;> omega

/-- Per-depth comparison of 2-D points: coordinate `depth % 2`. -/
def pt2cmp (a b : ℤ × ℤ) (d : Nat) : Ordering :=
  if d % 2 = 0 then cmpInt a.1 b.1 else cmpInt a.2 b.2

/-- L∞ distance on 2-D integer points. -/
def pt2dist (a b : ℤ × ℤ) : ℤ :=
  max |a.1 - b.1| |a.2 - b.2|

/-- Distance to the axis through `b` at the given depth. -/
def pt2axis (a b : ℤ × ℤ) (d : Nat) : ℤ :=
  if d % 2 = 0 then |a.1 - b.1| else |a.2 - b.2|

/-- 2-D integer points under the L∞ metric, axes cycling with depth. -/
def pt2 : KdItem (ℤ × ℤ) ℤ :=
  ⟨pt2cmp, pt2dist, pt2axis⟩

lemma pt2_lawful : KdLawful pt2 := by
  constructor
  · intro a b d
    show pt2cmp a b d = (pt2cmp b a d).swap
    unfold pt2cmp
    by_cases hd : d % 2 = 0
    · rw [if_pos hd, if_pos hd, cmpInt_swap]
    · rw [if_neg hd, if_neg hd, cmpInt_swap]
  · intro a b c d
    show pt2cmp a b d ≠ _ → pt2cmp b c d ≠ _ → pt2cmp a c d ≠ _
    unfold pt2cmp
    by_cases hd : d % 2 = 0
    · rw [if_pos hd, if_pos hd, if_pos hd]
      intro h1 h2
      rw [cmpInt_ne_gt] at h1 h2 ⊢
      omega
    · rw [if_neg hd, if_neg hd, if_neg hd]
      intro h1 h2
      rw [cmpInt_ne_gt] at h1 h2 ⊢
      omega
  · intro a b
    show pt2dist a b = pt2dist b a
    unfold pt2dist
    rw [abs_sub_comm a.1 b.1, abs_sub_comm a.2 b.2]
  · intro a b c
    show pt2dist a a ≤ pt2dist b c
    unfold pt2dist
    simp only [sub_self, abs_zero, max_self]
    exact le_max_of_le_left (abs_nonneg _)
  · intro q b x d hq hx
    replace hq : pt2cmp q b d = Ordering.lt := hq
    replace hx : pt2cmp x b d ≠ Ordering.lt := hx
    show pt2axis q b d ≤ pt2dist q x
    unfold pt2cmp at hq hx
    unfold pt2axis pt2dist
    by_cases hd : d % 2 = 0
    · rw [if_pos hd] at hq hx ⊢
      have h1 : q.1 < b.1 := cmpInt_eq_lt.1 hq
      have h2 : b.1 ≤ x.1 := cmpInt_ne_lt.1 hx
      refine le_trans ?_ (le_max_left _ _)
      rw [abs_of_nonpos (by omega), abs_of_nonpos (by omega)]
      omega
    · rw [if_neg hd] at hq hx ⊢
      have h1 : q.2 < b.2 := cmpInt_eq_lt.1 hq
      have h2 : b.2 ≤ x.2 := cmpInt_ne_lt.1 hx
      refine le_trans ?_ (le_max_right _ _)
      rw [abs_of_nonpos (by omega), abs_of_nonpos (by omega)]
      omega
  · intro q b x d hq hx
    replace hq : pt2cmp q b d ≠ Ordering.lt := hq
    replace hx : pt2cmp x b d ≠ Ordering.gt := hx
    show pt2axis q b d ≤ pt2dist q x
    unfold pt2cmp at hq hx
    unfold pt2axis pt2dist
    by_cases hd : d % 2 = 0
    · rw [if_pos hd] at hq hx ⊢
      have h1 : b.1 ≤ q.1 := cmpInt_ne_lt.1 hq
      have h2 : x.1 ≤ b.1 := cmpInt_ne_gt.1 hx
      refine le_trans ?_ (le_max_left _ _)
      rw [abs_of_nonneg (by omega), abs_of_nonneg (by omega)]
      omega
    · rw [if_neg hd] at hq hx ⊢
      have h1 : b.2 ≤ q.2 := cmpInt_ne_lt.1 hq
      have h2 : x.2 ≤ b.2 := cmpInt_ne_gt.1 hx
      refine le_trans ?_ (le_max_right _ _)
      rw [abs_of_nonneg (by omega), abs_of_nonneg (by omega)]
      omega

/-!  Controlled evaluation of `construct_part` on small concrete inputs
(the definition is well-founded recursive, so concrete runs are proved by
rewriting with its equations rather than by kernel reduction). -/

lemma construct_part_nil (it : KdItem T M) (d : Nat) :
    construct_part it ([] : List T) d = .empty := by
  rw [construct_part]

lemma construct_part_singleton (it : KdItem T M) (x : T) (d : Nat) :
    construct_part it [x] d = .node x .empty .empty := by
  rw [construct_part]

/-- A two-element slice: `mid = 1`, so the sorted maximum becomes the pivot,
the sorted minimum forms the left subtree, and the right subtree is empty. -/
lemma construct_part_pair (it : KdItem T M) (x y : T) (d : Nat) :
    construct_part it [x, y] d =
      if leD it d x y then .node y (.node x .empty .empty) .empty
      else .node x (.node y .empty .empty) .empty := by
  have hsorted : List.insertionSort (leD it d) [x, y] =
      if leD it d x y then [x, y] else [y, x] := by
    by_cases h : leD it d x y <;>
      simp [List.insertionSort, List.orderedInsert, h]
  have hdrop : (List.insertionSort (leD it d) [x, y]).drop (([x, y] : List T).length / 2) =
      [if leD it d x y then y else x] := by
    rw [hsorted]
    by_cases h : leD it d x y <;> simp [h]
  have htake : (List.insertionSort (leD it d) [x, y]).take (([x, y] : List T).length / 2) =
      [if leD it d x y then x else y] := by
    rw [hsorted]
    by_cases h : leD it d x y <;> simp [h]
  rw [construct_part]
  split
  · rename_i heq
    rw [hdrop] at heq
    exact absurd heq (by simp)
  · rename_i p2 right2 heq
    rw [hdrop] at heq
    injection heq with h1 h2
    subst h1
    subst h2
    rw [htake, construct_part_singleton, construct_part_nil]
    by_cases h : leD it d x y <;> simp [h]

/-!  Single-nearest-neighbor correctness (`max_candidates = 1`). -/

lemma heapOffer_one (q x : T) (cands : List (T × M))
    (hok : cands = [] ∨ ∃ y, cands = [(y, it.distance q y)]) :
    ∃ m, heapOffer 1 cands (x, it.distance q x) = some [(m, it.distance q m)] ∧
      m ∈ x :: cands.map Prod.fst ∧
      ∀ w ∈ x :: cands.map Prod.fst, it.distance q m ≤ it.distance q w := by
  rcases hok with h | ⟨y, h⟩ <;> subst h
  · refine ⟨x, rfl, by simp, ?_⟩
    intro w hw
    simp only [List.map_nil, List.mem_singleton] at hw
    rw [hw]
  · by_cases hlt : it.distance q x < it.distance q y
    · refine ⟨x, ?_, by simp, ?_⟩
      · show heapOffer 1 [(y, it.distance q y)] (x, it.distance q x) = _
        unfold heapOffer
        rw [if_neg (by simp)]
        show (if it.distance q x < it.distance q y then
            some (heapPush (heapPop [(y, it.distance q y)]) (x, it.distance q x))
          else some [(y, it.distance q y)]) = _
        rw [if_pos hlt]
        rfl
      · intro w hw
        simp only [List.map_cons, List.map_nil, List.mem_cons, List.mem_singleton] at hw
        rcases hw with h | h | h
        · rw [h]
        · rw [h]
          exact le_of_lt hlt
        · exact absurd h (List.not_mem_nil w)
    · refine ⟨y, ?_, by simp, ?_⟩
      · show heapOffer 1 [(y, it.distance q y)] (x, it.distance q x) = _
        unfold heapOffer
        rw [if_neg (by simp)]
        show (if it.distance q x < it.distance q y then
            some (heapPush (heapPop [(y, it.distance q y)]) (x, it.distance q x))
          else some [(y, it.distance q y)]) = _
        rw [if_neg hlt]
      · intro w hw
        simp only [List.map_cons, List.map_nil, List.mem_cons, List.mem_singleton] at hw
        rcases hw with h | h | h
        · rw [h]
          exact le_of_not_lt hlt
        · rw [h]
        · exact absurd h (List.not_mem_nil w)


/-- Correctness of the depth search with `max_candidates = 1`: the heap is
always empty or a single closest-so-far candidate, no panic occurs, and the
final candidate realizes the minimum distance over the initial candidate and
the whole subtree. -/
lemma nearest1_aux (hl : KdLawful it) (q : T) (t : Kdt T) :
    ∀ (d : Nat) (cands : List (T × M)), TreeInv it t d →
      (cands = [] ∨ ∃ y, cands = [(y, it.distance q y)]) →
      ∃ res, find_nearest_n_depth it 1 q t d cands = some res ∧
        (res = [] ∨ ∃ z, res = [(z, it.distance q z)]) ∧
        (res = [] → cands = [] ∧ treeItems t = []) ∧
        ∀ z ∈ res.map Prod.fst,
          (z ∈ cands.map Prod.fst ∨ z ∈ treeItems t) ∧
          ∀ w, (w ∈ cands.map Prod.fst ∨ w ∈ treeItems t) →
            it.distance q z ≤ it.distance q w := by
  induction t with
  | empty =>
    intro d cands _ hok
    refine ⟨cands, rfl, hok, fun h => ⟨h, rfl⟩, ?_⟩
    intro z hz
    refine ⟨Or.inl hz, ?_⟩
    intro w hw
    rcases hok with h | ⟨y, h⟩ <;> subst h
    · simp at hz
    · simp only [List.map_cons, List.map_nil, List.mem_singleton] at hz
      rcases hw with hw | hw
      · simp only [List.map_cons, List.map_nil, List.mem_singleton] at hw
        rw [hz, hw]
      · simp only [treeItems, List.not_mem_nil] at hw
  | node x l r ihl ihr =>
    intro d cands hinv hok
    obtain ⟨hleft, hright, hinvl, hinvr⟩ := hinv
    obtain ⟨m, hm_eq, hm_mem, hm_min⟩ := heapOffer_one q x cands hok
    have hm_pool : m ∈ cands.map Prod.fst ∨ m ∈ treeItems (Kdt.node x l r) := by
      rcases List.mem_cons.1 hm_mem with h | h
      · right; rw [h]; simp [treeItems]
      · left; exact h
    have hx_pool : (x : T) ∈ treeItems (Kdt.node x l r) := by simp [treeItems]
    simp only [find_nearest_n_depth]
    rw [hm_eq]
    cases hcmp : it.cmp_in_depth q x d with
    | lt =>
      dsimp only
      obtain ⟨res1, hres1, hok1, hne1, hmin1⟩ :=
        ihl (d + 1) [(m, it.distance q m)] hinvl (Or.inr ⟨m, rfl⟩)
      rw [hres1]
      rcases hok1 with h0 | ⟨m2, hm2⟩
      · exact absurd (hne1 h0).1 (List.cons_ne_nil _ _)
      subst hm2
      dsimp only
      rw [if_neg (by simp)]
      simp only [heapPeek, List.head?_cons]
      dsimp only
      have hm2_le_m : it.distance q m2 ≤ it.distance q m :=
        (hmin1 m2 (by simp)).2 m (by simp)
      have hm2_pool : m2 ∈ cands.map Prod.fst ∨ m2 ∈ treeItems (Kdt.node x l r) := by
        rcases (hmin1 m2 (by simp)).1 with h | h
        · simp only [List.map_cons, List.map_nil, List.mem_singleton] at h
          rw [h]; exact hm_pool
        · right; simp [treeItems, h]
      have hm2_min_l : ∀ w ∈ treeItems l, it.distance q m2 ≤ it.distance q w := by
        intro w hw
        exact (hmin1 m2 (by simp)).2 w (Or.inr hw)
      have hm2_min_up : ∀ w, (w ∈ cands.map Prod.fst ∨ w = x) →
          it.distance q m2 ≤ it.distance q w := by
        intro w hw
        refine le_trans hm2_le_m (hm_min w ?_)
        rcases hw with h | h
        · exact List.mem_cons_of_mem x h
        · rw [h]; exact List.mem_cons_self x _
      by_cases haxis : it.distance_to_axis q x d < it.distance q m2
      · rw [if_pos haxis]
        obtain ⟨res2, hres2, hok2, hne2, hmin2⟩ :=
          ihr (d + 1) [(m2, it.distance q m2)] hinvr (Or.inr ⟨m2, rfl⟩)
        refine ⟨res2, hres2, hok2, ?_, ?_⟩
        · intro h0
          exact absurd (hne2 h0).1 (List.cons_ne_nil _ _)
        · intro z hz
          have hz2 := hmin2 z hz
          have hz_le_m2 : it.distance q z ≤ it.distance q m2 := hz2.2 m2 (by simp)
          constructor
          · rcases hz2.1 with h | h
            · simp only [List.map_cons, List.map_nil, List.mem_singleton] at h
              rw [h]; exact hm2_pool
            · right; simp [treeItems, h]
          · intro w hw
            rcases hw with hw | hw
            · exact le_trans hz_le_m2 (hm2_min_up w (Or.inl hw))
            · simp only [treeItems, List.mem_cons, List.mem_append] at hw
              rcases hw with hw | hw | hw
              · exact le_trans hz_le_m2 (hm2_min_up w (Or.inr hw))
              · exact le_trans hz_le_m2 (hm2_min_l w hw)
              · exact hz2.2 w (Or.inr hw)
      · rw [if_neg haxis]
        refine ⟨[(m2, it.distance q m2)], rfl, Or.inr ⟨m2, rfl⟩,
          fun h0 => absurd h0 (List.cons_ne_nil _ _), ?_⟩
        intro z hz
        simp only [List.map_cons, List.map_nil, List.mem_singleton] at hz
        subst hz
        refine ⟨hm2_pool, ?_⟩
        intro w hw
        rcases hw with hw | hw
        · exact hm2_min_up w (Or.inl hw)
        · simp only [treeItems, List.mem_cons, List.mem_append] at hw
          rcases hw with hw | hw | hw
          · exact hm2_min_up w (Or.inr hw)
          · exact hm2_min_l w hw
          · have hfar : it.distance_to_axis q x d ≤ it.distance q w :=
              hl.axis_le_far q x w d hcmp (hright w hw)
            exact le_trans (le_of_not_lt haxis) hfar
    | eq =>
      dsimp only
      obtain ⟨res1, hres1, hok1, hne1, hmin1⟩ :=
        ihr (d + 1) [(m, it.distance q m)] hinvr (Or.inr ⟨m, rfl⟩)
      rw [hres1]
      rcases hok1 with h0 | ⟨m2, hm2⟩
      · exact absurd (hne1 h0).1 (List.cons_ne_nil _ _)
      subst hm2
      dsimp only
      rw [if_neg (by simp)]
      simp only [heapPeek, List.head?_cons]
      dsimp only
      have hm2_le_m : it.distance q m2 ≤ it.distance q m :=
        (hmin1 m2 (by simp)).2 m (by simp)
      have hm2_pool : m2 ∈ cands.map Prod.fst ∨ m2 ∈ treeItems (Kdt.node x l r) := by
        rcases (hmin1 m2 (by simp)).1 with h | h
        · simp only [List.map_cons, List.map_nil, List.mem_singleton] at h
          rw [h]; exact hm_pool
        · right; simp [treeItems, h]
      have hm2_min_r : ∀ w ∈ treeItems r, it.distance q m2 ≤ it.distance q w := by
        intro w hw
        exact (hmin1 m2 (by simp)).2 w (Or.inr hw)
      have hm2_min_up : ∀ w, (w ∈ cands.map Prod.fst ∨ w = x) →
          it.distance q m2 ≤ it.distance q w := by
        intro w hw
        refine le_trans hm2_le_m (hm_min w ?_)
        rcases hw with h | h
        · exact List.mem_cons_of_mem x h
        · rw [h]; exact List.mem_cons_self x _
      have hqx : it.cmp_in_depth q x d ≠ Ordering.lt := by rw [hcmp]; simp
      by_cases haxis : it.distance_to_axis q x d < it.distance q m2
      · rw [if_pos haxis]
        obtain ⟨res2, hres2, hok2, hne2, hmin2⟩ :=
          ihl (d + 1) [(m2, it.distance q m2)] hinvl (Or.inr ⟨m2, rfl⟩)
        refine ⟨res2, hres2, hok2, ?_, ?_⟩
        · intro h0
          exact absurd (hne2 h0).1 (List.cons_ne_nil _ _)
        · intro z hz
          have hz2 := hmin2 z hz
          have hz_le_m2 : it.distance q z ≤ it.distance q m2 := hz2.2 m2 (by simp)
          constructor
          · rcases hz2.1 with h | h
            · simp only [List.map_cons, List.map_nil, List.mem_singleton] at h
              rw [h]; exact hm2_pool
            · right; simp [treeItems, h]
          · intro w hw
            rcases hw with hw | hw
            · exact le_trans hz_le_m2 (hm2_min_up w (Or.inl hw))
            · simp only [treeItems, List.mem_cons, List.mem_append] at hw
              rcases hw with hw | hw | hw
              · exact le_trans hz_le_m2 (hm2_min_up w (Or.inr hw))
              · exact hz2.2 w (Or.inr hw)
              · exact le_trans hz_le_m2 (hm2_min_r w hw)
      · rw [if_neg haxis]
        refine ⟨[(m2, it.distance q m2)], rfl, Or.inr ⟨m2, rfl⟩,
          fun h0 => absurd h0 (List.cons_ne_nil _ _), ?_⟩
        intro z hz
        simp only [List.map_cons, List.map_nil, List.mem_singleton] at hz
        subst hz
        refine ⟨hm2_pool, ?_⟩
        intro w hw
        rcases hw with hw | hw
        · exact hm2_min_up w (Or.inl hw)
        · simp only [treeItems, List.mem_cons, List.mem_append] at hw
          rcases hw with hw | hw | hw
          · exact hm2_min_up w (Or.inr hw)
          · have hnear : it.distance_to_axis q x d ≤ it.distance q w :=
              hl.axis_le_near q x w d hqx (hleft w hw)
            exact le_trans (le_of_not_lt haxis) hnear
          · exact hm2_min_r w hw
    | gt =>
      dsimp only
      obtain ⟨res1, hres1, hok1, hne1, hmin1⟩ :=
        ihr (d + 1) [(m, it.distance q m)] hinvr (Or.inr ⟨m, rfl⟩)
      rw [hres1]
      rcases hok1 with h0 | ⟨m2, hm2⟩
      · exact absurd (hne1 h0).1 (List.cons_ne_nil _ _)
      subst hm2
      dsimp only
      rw [if_neg (by simp)]
      simp only [heapPeek, List.head?_cons]
      dsimp only
      have hm2_le_m : it.distance q m2 ≤ it.distance q m :=
        (hmin1 m2 (by simp)).2 m (by simp)
      have hm2_pool : m2 ∈ cands.map Prod.fst ∨ m2 ∈ treeItems (Kdt.node x l r) := by
        rcases (hmin1 m2 (by simp)).1 with h | h
        · simp only [List.map_cons, List.map_nil, List.mem_singleton] at h
          rw [h]; exact hm_pool
        · right; simp [treeItems, h]
      have hm2_min_r : ∀ w ∈ treeItems r, it.distance q m2 ≤ it.distance q w := by
        intro w hw
        exact (hmin1 m2 (by simp)).2 w (Or.inr hw)
      have hm2_min_up : ∀ w, (w ∈ cands.map Prod.fst ∨ w = x) →
          it.distance q m2 ≤ it.distance q w := by
        intro w hw
        refine le_trans hm2_le_m (hm_min w ?_)
        rcases hw with h | h
        · exact List.mem_cons_of_mem x h
        · rw [h]; exact List.mem_cons_self x _
      have hqx : it.cmp_in_depth q x d ≠ Ordering.lt := by rw [hcmp]; simp
      by_cases haxis : it.distance_to_axis q x d < it.distance q m2
      · rw [if_pos haxis]
        obtain ⟨res2, hres2, hok2, hne2, hmin2⟩ :=
          ihl (d + 1) [(m2, it.distance q m2)] hinvl (Or.inr ⟨m2, rfl⟩)
        refine ⟨res2, hres2, hok2, ?_, ?_⟩
        · intro h0
          exact absurd (hne2 h0).1 (List.cons_ne_nil _ _)
        · intro z hz
          have hz2 := hmin2 z hz
          have hz_le_m2 : it.distance q z ≤ it.distance q m2 := hz2.2 m2 (by simp)
          constructor
          · rcases hz2.1 with h | h
            · simp only [List.map_cons, List.map_nil, List.mem_singleton] at h
              rw [h]; exact hm2_pool
            · right; simp [treeItems, h]
          · intro w hw
            rcases hw with hw | hw
            · exact le_trans hz_le_m2 (hm2_min_up w (Or.inl hw))
            · simp only [treeItems, List.mem_cons, List.mem_append] at hw
              rcases hw with hw | hw | hw
              · exact le_trans hz_le_m2 (hm2_min_up w (Or.inr hw))
              · exact hz2.2 w (Or.inr hw)
              · exact le_trans hz_le_m2 (hm2_min_r w hw)
      · rw [if_neg haxis]
        refine ⟨[(m2, it.distance q m2)], rfl, Or.inr ⟨m2, rfl⟩,
          fun h0 => absurd h0 (List.cons_ne_nil _ _), ?_⟩
        intro z hz
        simp only [List.map_cons, List.map_nil, List.mem_singleton] at hz
        subst hz
        refine ⟨hm2_pool, ?_⟩
        intro w hw
        rcases hw with hw | hw
        · exact hm2_min_up w (Or.inl hw)
        · simp only [treeItems, List.mem_cons, List.mem_append] at hw
          rcases hw with hw | hw | hw
          · exact hm2_min_up w (Or.inr hw)
          · have hnear : it.distance_to_axis q x d ≤ it.distance q w :=
              hl.axis_le_near q x w d hqx (hleft w hw)
            exact le_trans (le_of_not_lt haxis) hnear
          · exact hm2_min_r w hw


/-- `find_nearest` over a constructed tree: no panic; `None` exactly on empty
input; otherwise some item of the input realizing the minimum distance to
the query. -/
lemma find_nearest_spec (hl : KdLawful it) (items : List T) (q : T) :
    (find_nearest it (construct it items) q = some none ↔ items = []) ∧
      find_nearest it (construct it items) q ≠ none ∧
      ∀ x, find_nearest it (construct it items) q = some (some x) →
        x ∈ items ∧ ∀ y ∈ items, it.distance x q ≤ it.distance y q := by
  obtain ⟨res, hres, hok, hne, hmin⟩ := nearest1_aux hl q (construct it items) 0 []
    (treeInv_construct hl items) (Or.inl rfl)
  unfold find_nearest find_nearest_n
  rw [hres]
  simp only [Option.map_some']
  rcases hok with h0 | ⟨z, hz⟩
  · subst h0
    simp only [List.reverse_nil, List.map_nil, List.head?_nil]
    have hitems : items = [] := by
      have h2 := (hne rfl).2
      have hperm := treeItems_construct_part it items 0
      unfold construct at h2
      rw [h2] at hperm
      exact hperm.nil_eq.symm
    refine ⟨by simp [hitems], by simp, ?_⟩
    intro x hx
    exact absurd hx (by simp)
  · subst hz
    simp only [List.reverse_cons, List.reverse_nil, List.nil_append, List.map_cons,
      List.map_nil, List.head?_cons]
    have hz_pool := hmin z (by simp)
    have hz_items : z ∈ items := by
      rcases hz_pool.1 with h | h
      · simp at h
      · exact mem_treeItems_construct.1 h
    refine ⟨?_, by simp, ?_⟩
    · constructor
      · intro h
        exact absurd h (by simp)
      · intro h
        subst h
        exact absurd hz_items (by simp)
    · intro x hx
      have hxz : x = z := by
        injection hx with hx2
        injection hx2 with hx3
        exact hx3.symm
      subst hxz
      refine ⟨hz_items, ?_⟩
      intro y hy
      rw [hl.dist_symm x q, hl.dist_symm y q]
      exact hz_pool.2 y (Or.inr (mem_treeItems_construct.2 hy))

/-- Range query correctness over any subtree satisfying the invariant: the
returned list is, as a multiset, exactly the items within `eps` of the
query. -/
lemma find_range_aux (hl : KdLawful it) (q : T) (eps : M) (t : Kdt T) :
    ∀ d, TreeInv it t d →
      (↑(find_range_n it t q eps d) : Multiset T) =
        Multiset.filter (fun x => it.distance x q ≤ eps) (↑(treeItems t) : Multiset T) := by
  induction t with
  | empty =>
    intro d _
    simp [find_range_n, treeItems]
  | node x l r ihl ihr =>
    intro d hinv
    obtain ⟨hleft, hright, hinvl, hinvr⟩ := hinv
    have hnode : (↑(treeItems (Kdt.node x l r)) : Multiset T) =
        x ::ₘ (↑(treeItems l) + ↑(treeItems r)) := by
      simp [treeItems]
    rw [hnode, Multiset.filter_cons, Multiset.filter_add]
    simp only [find_range_n]
    cases hcmp : it.cmp_in_depth q x d
    case lt =>
      dsimp only
      by_cases hpr : it.distance_to_axis q x d ≤ eps
      · rw [if_pos hpr]
        by_cases hin : it.distance x q ≤ eps
        · rw [if_pos hin, if_pos hin, ← Multiset.coe_add, ← Multiset.coe_add,
            Multiset.coe_singleton, ihl (d + 1) hinvl, ihr (d + 1) hinvr]
        · rw [if_neg hin, if_neg hin, List.nil_append, ← Multiset.coe_add,
            ihl (d + 1) hinvl, ihr (d + 1) hinvr, zero_add]
      · rw [if_neg hpr]
        have hskip : Multiset.filter (fun w => it.distance w q ≤ eps)
            (↑(treeItems r) : Multiset T) = 0 := by
          refine Multiset.filter_eq_nil.2 ?_
          intro w hw hc
          have hfar : it.distance_to_axis q x d ≤ it.distance q w :=
            hl.axis_le_far q x w d hcmp (hright w (by exact_mod_cast hw))
          rw [hl.dist_symm q w] at hfar
          exact hpr (le_trans hfar hc)
        rw [hskip, add_zero, List.append_nil]
        by_cases hin : it.distance x q ≤ eps
        · rw [if_pos hin, if_pos hin, ← Multiset.coe_add, Multiset.coe_singleton,
            ihl (d + 1) hinvl]
        · rw [if_neg hin, if_neg hin, List.nil_append, ihl (d + 1) hinvl, zero_add]
    case eq =>
      dsimp only
      have hqx : it.cmp_in_depth q x d ≠ Ordering.lt := by rw [hcmp]; simp
      by_cases hpr : it.distance_to_axis q x d ≤ eps
      · rw [if_pos hpr]
        by_cases hin : it.distance x q ≤ eps
        · rw [if_pos hin, if_pos hin, ← Multiset.coe_add, ← Multiset.coe_add,
            Multiset.coe_singleton, ihl (d + 1) hinvl, ihr (d + 1) hinvr,
            add_comm (Multiset.filter (fun x => it.distance x q ≤ eps)
              (↑(treeItems r) : Multiset T)) _]
        · rw [if_neg hin, if_neg hin, List.nil_append, ← Multiset.coe_add,
            ihl (d + 1) hinvl, ihr (d + 1) hinvr, zero_add,
            add_comm (Multiset.filter (fun x => it.distance x q ≤ eps)
              (↑(treeItems r) : Multiset T)) _]
      · rw [if_neg hpr]
        have hskip : Multiset.filter (fun w => it.distance w q ≤ eps)
            (↑(treeItems l) : Multiset T) = 0 := by
          refine Multiset.filter_eq_nil.2 ?_
          intro w hw hc
          have hfar : it.distance_to_axis q x d ≤ it.distance q w :=
            hl.axis_le_near q x w d hqx (hleft w (by exact_mod_cast hw))
          rw [hl.dist_symm q w] at hfar
          exact hpr (le_trans hfar hc)
        rw [hskip, zero_add, List.append_nil]
        by_cases hin : it.distance x q ≤ eps
        · rw [if_pos hin, if_pos hin, ← Multiset.coe_add, Multiset.coe_singleton,
            ihr (d + 1) hinvr]
        · rw [if_neg hin, if_neg hin, List.nil_append, ihr (d + 1) hinvr, zero_add]
    case gt =>
      dsimp only
      have hqx : it.cmp_in_depth q x d ≠ Ordering.lt := by rw [hcmp]; simp
      by_cases hpr : it.distance_to_axis q x d ≤ eps
      · rw [if_pos hpr]
        by_cases hin : it.distance x q ≤ eps
        · rw [if_pos hin, if_pos hin, ← Multiset.coe_add, ← Multiset.coe_add,
            Multiset.coe_singleton, ihl (d + 1) hinvl, ihr (d + 1) hinvr,
            add_comm (Multiset.filter (fun x => it.distance x q ≤ eps)
              (↑(treeItems r) : Multiset T)) _]
        · rw [if_neg hin, if_neg hin, List.nil_append, ← Multiset.coe_add,
            ihl (d + 1) hinvl, ihr (d + 1) hinvr, zero_add,
            add_comm (Multiset.filter (fun x => it.distance x q ≤ eps)
              (↑(treeItems r) : Multiset T)) _]
      · rw [if_neg hpr]
        have hskip : Multiset.filter (fun w => it.distance w q ≤ eps)
            (↑(treeItems l) : Multiset T) = 0 := by
          refine Multiset.filter_eq_nil.2 ?_
          intro w hw hc
          have hfar : it.distance_to_axis q x d ≤ it.distance q w :=
            hl.axis_le_near q x w d hqx (hleft w (by exact_mod_cast hw))
          rw [hl.dist_symm q w] at hfar
          exact hpr (le_trans hfar hc)
        rw [hskip, zero_add, List.append_nil]
        by_cases hin : it.distance x q ≤ eps
        · rw [if_pos hin, if_pos hin, ← Multiset.coe_add, Multiset.coe_singleton,
            ihr (d + 1) hinvr]
        · rw [if_neg hin, if_neg hin, List.nil_append, ihr (d + 1) hinvr, zero_add]

/-- Range query over a constructed tree: exactly the input items within
`eps` of the query, as a multiset. -/
lemma find_range_spec (hl : KdLawful it) (items : List T) (q : T) (eps : M) :
    (↑(find_range_n it (construct it items) q eps 0) : Multiset T) =
      Multiset.filter (fun x => it.distance x q ≤ eps) (↑items : Multiset T) := by
  rw [find_range_aux hl q eps _ 0 (treeInv_construct hl items)]
  congr 1
  exact Multiset.coe_eq_coe.2 (treeItems_construct_part it items 0)

/-!  DBSCAN driver invariants. -/

/-- Labelled positions are always visited (src/dbscan.rs: every labelling
site either just set the visited flag or is guarded by `Noize`). -/
def DbInv (labels : Fin n → DbscanLabel) (visited : Fin n → Bool) : Prop :=
  ∀ i, labels i ≠ DbscanLabel.Noize → visited i = true

/-- One pass of writes with the current cluster id: each position is either
untouched or upgraded from `Noize` to `Cluster cluster`. -/
def LabelStep (cluster : Nat) (L L2 : Fin n → DbscanLabel) : Prop :=
  ∀ i, L2 i = L i ∨ (L i = DbscanLabel.Noize ∧ L2 i = DbscanLabel.Cluster cluster)

lemma LabelStep.rfl {cluster : Nat} (L : Fin n → DbscanLabel) : LabelStep cluster L L :=
  fun _ => Or.inl (Eq.refl _)

lemma LabelStep.trans {cluster : Nat} {L1 L2 L3 : Fin n → DbscanLabel}
    (h12 : LabelStep cluster L1 L2) (h23 : LabelStep cluster L2 L3) :
    LabelStep cluster L1 L3 := by
  intro i
  rcases h23 i with h | ⟨h2, h3⟩
  · rcases h12 i with h1 | ⟨h1, h1b⟩
    · exact Or.inl (h.trans h1)
    · exact Or.inr ⟨h1, h.trans h1b⟩
  · rcases h12 i with h1 | ⟨h1, h1b⟩
    · exact Or.inr ⟨h1 ▸ h2, h3⟩
    · rw [h1b] at h2
      exact absurd h2 (by simp)

lemma processNeighbor_spec (jt : KdItem (Fin n × T) M) (tree : Kdt (Fin n × T)) (eps : M)
    (min_items cluster : Nat) (labels : Fin n → DbscanLabel) (visited : Fin n → Bool)
    (groups : List (List (Fin n × T))) (nb : Fin n × T)
    (hinv : DbInv labels visited) :
    LabelStep cluster labels
        (processNeighbor jt tree eps min_items cluster (labels, visited, groups) nb).1 ∧
      DbInv (processNeighbor jt tree eps min_items cluster (labels, visited, groups) nb).1
        (processNeighbor jt tree eps min_items cluster (labels, visited, groups) nb).2.1 ∧
      (∀ i, visited i = true →
        (processNeighbor jt tree eps min_items cluster (labels, visited, groups) nb).2.1 i = true) := by
  unfold processNeighbor
  dsimp only
  by_cases hv : visited nb.1
  · rw [if_pos hv]
    dsimp only
    by_cases hlab : labels nb.1 = DbscanLabel.Noize
    · rw [if_pos hlab]
      refine ⟨?_, ?_, ?_⟩
      · intro i
        dsimp only
        by_cases hi : i = nb.1
        · subst hi
          exact Or.inr ⟨hlab, Function.update_same _ _ _⟩
        · exact Or.inl (Function.update_noteq hi _ _)
      · intro i hne
        dsimp only at hne ⊢
        by_cases hi : i = nb.1
        · subst hi; exact hv
        · rw [Function.update_noteq hi] at hne
          exact hinv i hne
      · intro i hi
        dsimp only
        exact hi
    · rw [if_neg hlab]
      exact ⟨LabelStep.rfl labels, hinv, fun i hi => hi⟩
  · rw [if_neg hv]
    dsimp only
    have hlab : labels nb.1 = DbscanLabel.Noize := by
      by_contra hc
      exact hv (hinv nb.1 hc)
    have hupd : Function.update labels nb.1 (DbscanLabel.Cluster cluster) nb.1 =
        DbscanLabel.Cluster cluster := Function.update_same _ _ _
    rw [if_neg (by rw [hupd]; simp)]
    refine ⟨?_, ?_, ?_⟩
    · intro i
      dsimp only
      by_cases hi : i = nb.1
      · subst hi
        exact Or.inr ⟨hlab, Function.update_same _ _ _⟩
      · exact Or.inl (Function.update_noteq hi _ _)
    · intro i hne
      dsimp only at hne ⊢
      by_cases hi : i = nb.1
      · subst hi
        exact Function.update_same _ _ _
      · rw [Function.update_noteq hi] at hne ⊢
        exact hinv i hne
    · intro i hi
      dsimp only
      by_cases hi2 : i = nb.1
      · subst hi2
        exact Function.update_same _ _ _
      · rw [Function.update_noteq hi2]
        exact hi

lemma processGroup_spec (jt : KdItem (Fin n × T) M) (tree : Kdt (Fin n × T)) (eps : M)
    (min_items cluster : Nat) (g : List (Fin n × T)) :
    ∀ (labels : Fin n → DbscanLabel) (visited : Fin n → Bool)
      (groups : List (List (Fin n × T))), DbInv labels visited →
      LabelStep cluster labels
          (processGroup jt tree eps min_items cluster g (labels, visited, groups)).1 ∧
        DbInv (processGroup jt tree eps min_items cluster g (labels, visited, groups)).1
          (processGroup jt tree eps min_items cluster g (labels, visited, groups)).2.1 := by
  induction g with
  | nil =>
    intro labels visited groups hinv
    exact ⟨LabelStep.rfl labels, hinv⟩
  | cons a g ih =>
    intro labels visited groups hinv
    obtain ⟨h1, h2, _⟩ :=
      processNeighbor_spec jt tree eps min_items cluster labels visited groups a hinv
    unfold processGroup
    simp only [List.foldl_cons]
    have hs : processNeighbor jt tree eps min_items cluster (labels, visited, groups) a =
        ((processNeighbor jt tree eps min_items cluster (labels, visited, groups) a).1,
         (processNeighbor jt tree eps min_items cluster (labels, visited, groups) a).2.1,
         (processNeighbor jt tree eps min_items cluster (labels, visited, groups) a).2.2) := rfl
    rw [hs]
    obtain ⟨h3, h4⟩ := ih _ _ _ h2
    exact ⟨h1.trans h3, h4⟩

lemma expand_spec (jt : KdItem (Fin n × T) M) (tree : Kdt (Fin n × T)) (eps : M)
    (min_items cluster : Nat) :
    ∀ (labels : Fin n → DbscanLabel) (visited : Fin n → Bool)
      (groups : List (List (Fin n × T))), DbInv labels visited →
      LabelStep cluster labels
          (expand jt tree eps min_items cluster labels visited groups).1 ∧
        DbInv (expand jt tree eps min_items cluster labels visited groups).1
          (expand jt tree eps min_items cluster labels visited groups).2 := by
  intro labels visited groups
  induction labels, visited, groups using expand.induct jt tree eps min_items cluster with
  | case1 labels visited =>
    intro hinv
    simp only [expand]
    exact ⟨LabelStep.rfl labels, hinv⟩
  | case2 labels visited g rest ih =>
    intro hinv
    obtain ⟨h1, h2⟩ := processGroup_spec jt tree eps min_items cluster g labels visited [] hinv
    simp only [expand]
    obtain ⟨h3, h4⟩ := ih h2
    exact ⟨h1.trans h3, h4⟩

/-- Once a position carries a cluster label, the rest of the main loop never
changes it: every write is either guarded by the `Noize` check or hits a
freshly visited position, which by `DbInv` was still `Noize`. -/
lemma dbscanLoop_preserves (jt : KdItem (Fin n × T) M) (tree : Kdt (Fin n × T))
    (eps : M) (min_items : Nat) :
    ∀ (rest : List (Fin n × T)) (c : Nat) (labels : Fin n → DbscanLabel)
      (visited : Fin n → Bool), DbInv labels visited →
      ∀ q k, labels q = DbscanLabel.Cluster k →
        dbscanLoop jt tree eps min_items rest c labels visited q =
          DbscanLabel.Cluster k := by
  intro rest
  induction rest with
  | nil =>
    intro c labels visited _ q k hq
    simpa [dbscanLoop] using hq
  | cons item rest ih =>
    intro c labels visited hinv q k hq
    simp only [dbscanLoop]
    by_cases hv : visited item.1
    · rw [if_pos hv]
      exact ih c labels visited hinv q k hq
    · rw [if_neg hv]
      by_cases hcore : min_items ≤ (find_range_n jt tree item eps 0).length
      · rw [if_pos hcore]
        have hlab : labels item.1 = DbscanLabel.Noize := by
          by_contra hcn
          exact hv (hinv item.1 hcn)
        have hne : q ≠ item.1 := by
          intro he
          rw [← he, hq] at hlab
          exact absurd hlab (by simp)
        have hinv1 : DbInv (Function.update labels item.1 (DbscanLabel.Cluster c))
            (Function.update visited item.1 true) := by
          intro j hj
          by_cases hji : j = item.1
          · subst hji
            exact Function.update_same _ _ _
          · rw [Function.update_noteq hji] at hj
            rw [Function.update_noteq hji]
            exact hinv j hj
        obtain ⟨hstep, hinv2⟩ := expand_spec jt tree eps min_items c _ _
          [find_range_n jt tree item eps 0] hinv1
        have hq2 : (expand jt tree eps min_items c
            (Function.update labels item.1 (DbscanLabel.Cluster c))
            (Function.update visited item.1 true)
            [find_range_n jt tree item eps 0]).1 q = DbscanLabel.Cluster k := by
          rcases hstep q with h | ⟨h1, _⟩
          · rw [h, Function.update_noteq hne, hq]
          · rw [Function.update_noteq hne, hq] at h1
            exact absurd h1 (by simp)
        exact ih (satAdd1 c) _ _ hinv2 q k hq2
      · rw [if_neg hcore]
        have hinv1 : DbInv labels (Function.update visited item.1 true) := by
          intro j hj
          by_cases hji : j = item.1
          · subst hji
            exact Function.update_same _ _ _
          · rw [Function.update_noteq hji]
            exact hinv j hj
        exact ih c labels _ hinv1 q k hq

/-- Ids are handed out in encounter order: whatever the rest of the loop
changes receives a cluster id at least the current counter. -/
lemma dbscanLoop_mono (jt : KdItem (Fin n × T) M) (tree : Kdt (Fin n × T))
    (eps : M) (min_items : Nat) :
    ∀ (rest : List (Fin n × T)) (c : Nat) (labels : Fin n → DbscanLabel)
      (visited : Fin n → Bool) (q : Fin n), DbInv labels visited → c ≤ usizeMax →
      dbscanLoop jt tree eps min_items rest c labels visited q ≠ labels q →
      ∃ k, dbscanLoop jt tree eps min_items rest c labels visited q =
          DbscanLabel.Cluster k ∧ c ≤ k := by
  intro rest
  induction rest with
  | nil =>
    intro c labels visited q _ _ hne
    simp [dbscanLoop] at hne
  | cons item rest ih =>
    intro c labels visited q hinv hc hne
    simp only [dbscanLoop] at hne ⊢
    by_cases hv : visited item.1
    · rw [if_pos hv] at hne ⊢
      exact ih c labels visited q hinv hc hne
    · rw [if_neg hv] at hne ⊢
      by_cases hcore : min_items ≤ (find_range_n jt tree item eps 0).length
      · rw [if_pos hcore] at hne ⊢
        have hlab : labels item.1 = DbscanLabel.Noize := by
          by_contra hcn
          exact hv (hinv item.1 hcn)
        have hinv1 : DbInv (Function.update labels item.1 (DbscanLabel.Cluster c))
            (Function.update visited item.1 true) := by
          intro j hj
          by_cases hji : j = item.1
          · subst hji
            exact Function.update_same _ _ _
          · rw [Function.update_noteq hji] at hj
            rw [Function.update_noteq hji]
            exact hinv j hj
        obtain ⟨hstep, hinv2⟩ := expand_spec jt tree eps min_items c _ _
          [find_range_n jt tree item eps 0] hinv1
        have hl2 : (expand jt tree eps min_items c
            (Function.update labels item.1 (DbscanLabel.Cluster c))
            (Function.update visited item.1 true)
            [find_range_n jt tree item eps 0]).1 q = labels q ∨
            (expand jt tree eps min_items c
              (Function.update labels item.1 (DbscanLabel.Cluster c))
              (Function.update visited item.1 true)
              [find_range_n jt tree item eps 0]).1 q = DbscanLabel.Cluster c := by
          rcases hstep q with h | ⟨_, h2⟩
          · by_cases hqi : q = item.1
            · subst hqi
              rw [h, Function.update_same]
              exact Or.inr rfl
            · rw [h, Function.update_noteq hqi]
              exact Or.inl rfl
          · exact Or.inr h2
        have hsat_le : satAdd1 c ≤ usizeMax := min_le_right _ _
        have hc_sat : c ≤ satAdd1 c := le_min (Nat.le_succ c) hc
        by_cases h2 : dbscanLoop jt tree eps min_items rest (satAdd1 c)
            (expand jt tree eps min_items c
              (Function.update labels item.1 (DbscanLabel.Cluster c))
              (Function.update visited item.1 true)
              [find_range_n jt tree item eps 0]).1
            (expand jt tree eps min_items c
              (Function.update labels item.1 (DbscanLabel.Cluster c))
              (Function.update visited item.1 true)
              [find_range_n jt tree item eps 0]).2 q =
            (expand jt tree eps min_items c
              (Function.update labels item.1 (DbscanLabel.Cluster c))
              (Function.update visited item.1 true)
              [find_range_n jt tree item eps 0]).1 q
        · rw [h2] at hne ⊢
          rcases hl2 with h | h
          · exact absurd h hne
          · exact ⟨c, h, le_rfl⟩
        · obtain ⟨k, hk, hks⟩ := ih (satAdd1 c) _ _ q hinv2 hsat_le h2
          exact ⟨k, hk, le_trans hc_sat hks⟩
      · rw [if_neg hcore] at hne ⊢
        have hinv1 : DbInv labels (Function.update visited item.1 true) := by
          intro j hj
          by_cases hji : j = item.1
          · subst hji
            exact Function.update_same _ _ _
          · rw [Function.update_noteq hji]
            exact hinv j hj
        exact ih c labels _ q hinv1 hc hne

/-- The set of cluster ids present in a label assignment. -/
def idSetF (labels : Fin n → DbscanLabel) : Finset Nat :=
  Finset.univ.biUnion fun i =>
    match labels i with
    | DbscanLabel.Cluster k => {k}
    | DbscanLabel.Noize => ∅

lemma mem_idSetF {labels : Fin n → DbscanLabel} {k : Nat} :
    k ∈ idSetF labels ↔ ∃ i, labels i = DbscanLabel.Cluster k := by
  unfold idSetF
  rw [Finset.mem_biUnion]
  constructor
  · rintro ⟨i, -, hi⟩
    refine ⟨i, ?_⟩
    cases hl : labels i with
    | Cluster k2 =>
      rw [hl] at hi
      simp only [Finset.mem_singleton] at hi
      rw [hi]
    | Noize =>
      rw [hl] at hi
      simp at hi
  · rintro ⟨i, hi⟩
    refine ⟨i, Finset.mem_univ i, ?_⟩
    rw [hi]
    simp

lemma idSetF_update_noize {labels : Fin n → DbscanLabel} {i : Fin n} {c : Nat}
    (h : labels i = DbscanLabel.Noize) :
    idSetF (Function.update labels i (DbscanLabel.Cluster c)) =
      insert c (idSetF labels) := by
  ext k
  rw [Finset.mem_insert, mem_idSetF, mem_idSetF]
  constructor
  · rintro ⟨j, hj⟩
    by_cases hji : j = i
    · subst hji
      rw [Function.update_same] at hj
      injection hj with h2
      exact Or.inl h2.symm
    · rw [Function.update_noteq hji] at hj
      exact Or.inr ⟨j, hj⟩
  · rintro (hk | ⟨j, hj⟩)
    · subst hk
      exact ⟨i, Function.update_same _ _ _⟩
    · by_cases hji : j = i
      · subst hji
        rw [h] at hj
        exact absurd hj (by simp)
      · refine ⟨j, ?_⟩
        rw [Function.update_noteq hji]
        exact hj

lemma idSetF_labelStep {c : Nat} {L1 L2 : Fin n → DbscanLabel}
    (hstep : LabelStep c L1 L2) (hc : ∃ i, L1 i = DbscanLabel.Cluster c) :
    idSetF L2 = idSetF L1 := by
  ext k
  rw [mem_idSetF, mem_idSetF]
  constructor
  · rintro ⟨j, hj⟩
    rcases hstep j with h | ⟨_, h2⟩
    · rw [h] at hj
      exact ⟨j, hj⟩
    · rw [h2] at hj
      injection hj with h3
      rw [← h3]
      exact hc
  · rintro ⟨j, hj⟩
    rcases hstep j with h | ⟨h1, _⟩
    · exact ⟨j, h.trans hj⟩
    · rw [h1] at hj
      exact absurd hj (by simp)

/-- Main loop invariant for the set of assigned ids: with ids `1..K`
present and the counter at `min (K+1) usizeMax`, the loop can only extend
the id set to a longer contiguous range starting at 1. -/
lemma dbscanLoop_ids (jt : KdItem (Fin n × T) M) (tree : Kdt (Fin n × T))
    (eps : M) (min_items : Nat) :
    ∀ (rest : List (Fin n × T)) (c : Nat) (labels : Fin n → DbscanLabel)
      (visited : Fin n → Bool) (K : Nat), DbInv labels visited →
      K ≤ usizeMax → idSetF labels = Finset.Icc 1 K → c = min (K + 1) usizeMax →
      ∃ K2, idSetF (dbscanLoop jt tree eps min_items rest c labels visited) =
        Finset.Icc 1 K2 := by
  intro rest
  induction rest with
  | nil =>
    intro c labels visited K _ _ hid _
    refine ⟨K, ?_⟩
    simpa [dbscanLoop] using hid
  | cons item rest ih =>
    intro c labels visited K hinv hK hid hc
    simp only [dbscanLoop]
    by_cases hv : visited item.1
    · rw [if_pos hv]
      exact ih c labels visited K hinv hK hid hc
    · rw [if_neg hv]
      by_cases hcore : min_items ≤ (find_range_n jt tree item eps 0).length
      · rw [if_pos hcore]
        have hlab : labels item.1 = DbscanLabel.Noize := by
          by_contra hcn
          exact hv (hinv item.1 hcn)
        have hinv1 : DbInv (Function.update labels item.1 (DbscanLabel.Cluster c))
            (Function.update visited item.1 true) := by
          intro j hj
          by_cases hji : j = item.1
          · subst hji
            exact Function.update_same _ _ _
          · rw [Function.update_noteq hji] at hj
            rw [Function.update_noteq hji]
            exact hinv j hj
        obtain ⟨hstep, hinv2⟩ := expand_spec jt tree eps min_items c _ _
          [find_range_n jt tree item eps 0] hinv1
        have hcmem : ∃ i, Function.update labels item.1 (DbscanLabel.Cluster c) i =
            DbscanLabel.Cluster c := ⟨item.1, Function.update_same _ _ _⟩
        have hid2 : idSetF (expand jt tree eps min_items c
            (Function.update labels item.1 (DbscanLabel.Cluster c))
            (Function.update visited item.1 true)
            [find_range_n jt tree item eps 0]).1 = insert c (Finset.Icc 1 K) := by
          rw [idSetF_labelStep hstep hcmem, idSetF_update_noize hlab, hid]
        by_cases hKM : K < usizeMax
        · have hcval : c = K + 1 := by
            rw [hc]
            exact Nat.min_eq_left (by omega)
          have hins : insert (K + 1) (Finset.Icc 1 K) = Finset.Icc 1 (K + 1) := by
            ext a
            simp only [Finset.mem_insert, Finset.mem_Icc]
            omega
          refine ih (satAdd1 c) _ _ (K + 1) hinv2 (by omega) ?_ ?_
          · rw [hid2, hcval, hins]
          · unfold satAdd1
            rw [hcval]
        · have hKeq : K = usizeMax := le_antisymm hK (not_lt.1 hKM)
          have h1max : 1 ≤ usizeMax := by norm_num [usizeMax]
          have hcval : c = usizeMax := by
            rw [hc]
            exact Nat.min_eq_right (by omega)
          have hins : insert usizeMax (Finset.Icc 1 usizeMax) =
              Finset.Icc 1 usizeMax := by
            rw [Finset.insert_eq_self, Finset.mem_Icc]
            omega
          refine ih (satAdd1 c) _ _ usizeMax hinv2 le_rfl ?_ ?_
          · rw [hid2, hcval, hKeq, hins]
          · unfold satAdd1
            rw [hcval]
      · rw [if_neg hcore]
        have hinv1 : DbInv labels (Function.update visited item.1 true) := by
          intro j hj
          by_cases hji : j = item.1
          · subst hji
            exact Function.update_same _ _ _
          · rw [Function.update_noteq hji]
            exact hinv j hj
        exact ih c labels _ K hinv1 hK hid hc

/-- The set of cluster ids in an output label list. -/
def idsOfList (ls : List DbscanLabel) : Finset Nat :=
  (ls.filterMap fun l =>
    match l with
    | DbscanLabel.Cluster k => some k
    | DbscanLabel.Noize => none).toFinset

lemma idsOfList_ofFn (labels : Fin n → DbscanLabel) :
    idsOfList (List.ofFn labels) = idSetF labels := by
  ext k
  rw [mem_idSetF]
  unfold idsOfList
  rw [List.mem_toFinset, List.mem_filterMap]
  constructor
  · rintro ⟨a, ha, hk⟩
    rw [List.mem_ofFn] at ha
    obtain ⟨i, hi⟩ := ha
    refine ⟨i, ?_⟩
    cases hl : a with
    | Cluster k2 =>
      rw [hl] at hk
      simp only [Option.some.injEq] at hk
      rw [hi, hl, hk]
    | Noize =>
      rw [hl] at hk
      simp at hk
  · rintro ⟨i, hi⟩
    refine ⟨DbscanLabel.Cluster k, ?_, rfl⟩
    rw [List.mem_ofFn]
    exact ⟨i, hi⟩

/-- Evaluation of `construct` on the three-point failing input of claim C1:
distinct x-coordinates, so the sort is the identity; the pivot is the middle
point and the two others become leaf children. -/
lemma construct_three_eval :
    construct pt2 [((0:ℤ),(3:ℤ)), ((1:ℤ),(5:ℤ)), ((2:ℤ),(4:ℤ))] =
      Kdt.node ((1:ℤ),(5:ℤ)) (Kdt.node ((0:ℤ),(3:ℤ)) Kdt.empty Kdt.empty)
        (Kdt.node ((2:ℤ),(4:ℤ)) Kdt.empty Kdt.empty) := by
  unfold construct
  have hs : List.insertionSort (leD pt2 0) [((0:ℤ),(3:ℤ)), ((1:ℤ),(5:ℤ)), ((2:ℤ),(4:ℤ))] =
      [((0:ℤ),(3:ℤ)), ((1:ℤ),(5:ℤ)), ((2:ℤ),(4:ℤ))] := by decide
  have ht : List.take (([((0:ℤ),(3:ℤ)), ((1:ℤ),(5:ℤ)), ((2:ℤ),(4:ℤ))] :
        List (ℤ × ℤ)).length / 2) [((0:ℤ),(3:ℤ)), ((1:ℤ),(5:ℤ)), ((2:ℤ),(4:ℤ))] =
      [((0:ℤ),(3:ℤ))] := by decide
  rw [construct_part]
  split
  · rename_i heq
    rw [hs] at heq
    exact absurd heq (by simp)
  · rename_i p2 right2 heq
    rw [hs] at heq
    injection heq with h1 h2
    subst h1
    subst h2
    rw [hs, ht, construct_part_singleton, construct_part_singleton]

/-!  Claims. -/

/-- C1: `find_nearest_n(q, k)` is claimed to return its k results in
ascending order of distance.  The code returns `candidates.iter().rev()`
over the `BinaryHeap`, i.e. the underlying heap vector reversed, which is
not sorted: on the lawful instance `pt2` with tree items (0,3), (1,5),
(2,4) and query (0,0), the returned distances are [4, 3, 5].  The count
(min(k,n) = 3) and the multiset of the 3 smallest distances are as claimed;
the ascending order is not. -/
theorem C1_find_nearest_n_unsorted_eval :
    KdLawful pt2 ∧
      (find_nearest_n pt2 (construct pt2 [((0:ℤ),(3:ℤ)), ((1:ℤ),(5:ℤ)), ((2:ℤ),(4:ℤ))])
          ((0:ℤ),(0:ℤ)) 3).map (List.map (pt2.distance ((0:ℤ),(0:ℤ)))) =
        some [(4:ℤ), 3, 5] ∧
      ¬ List.Sorted (· ≤ ·) [(4:ℤ), 3, 5] := by
  refine ⟨pt2_lawful, ?_, by decide⟩
  rw [construct_three_eval]
  decide

/-- C2: over a constructed tree satisfying the preconditions,
`find_nearest` never panics, returns `None` exactly on the empty tree, and
otherwise returns an input item whose distance to the query is minimal
(ties to any one item). -/
theorem C2_find_nearest_min (it : KdItem T M) (hl : KdLawful it)
    (items : List T) (q : T) :
    (find_nearest it (construct it items) q = some none ↔ items = []) ∧
      find_nearest it (construct it items) q ≠ none ∧
      ∀ x, find_nearest it (construct it items) q = some (some x) →
        x ∈ items ∧ ∀ y ∈ items, it.distance x q ≤ it.distance y q :=
  find_nearest_spec hl items q

/-- Witness for C2 at the lawful instance `pt2` on a concrete input. -/
theorem C2_witness :
    KdLawful pt2 ∧
      ((find_nearest pt2 (construct pt2 [((0:ℤ),(0:ℤ)), ((5:ℤ),(5:ℤ))]) ((1:ℤ),(1:ℤ)) =
          some none ↔ [((0:ℤ),(0:ℤ)), ((5:ℤ),(5:ℤ))] = ([] : List (ℤ × ℤ))) ∧
        find_nearest pt2 (construct pt2 [((0:ℤ),(0:ℤ)), ((5:ℤ),(5:ℤ))]) ((1:ℤ),(1:ℤ)) ≠
          none ∧
        ∀ x, find_nearest pt2 (construct pt2 [((0:ℤ),(0:ℤ)), ((5:ℤ),(5:ℤ))]) ((1:ℤ),(1:ℤ)) =
            some (some x) →
          x ∈ [((0:ℤ),(0:ℤ)), ((5:ℤ),(5:ℤ))] ∧
            ∀ y ∈ [((0:ℤ),(0:ℤ)), ((5:ℤ),(5:ℤ))],
              pt2.distance x ((1:ℤ),(1:ℤ)) ≤ pt2.distance y ((1:ℤ),(1:ℤ))) :=
  ⟨pt2_lawful, C2_find_nearest_min pt2 pt2_lawful [((0:ℤ),(0:ℤ)), ((5:ℤ),(5:ℤ))] ((1:ℤ),(1:ℤ))⟩

/-- C3 counterexample: the claim quantifies over every epsilon, but for a
negative epsilon the query point present in the tree is not returned
(`distance(q,q) = 0 > eps`): on `pt2`, the singleton tree of (0,0) queried
at (0,0) with eps = -1 yields the empty list. -/
theorem C3_counterexample :
    KdLawful pt2 ∧ ((0:ℤ),(0:ℤ)) ∈ [((0:ℤ),(0:ℤ))] ∧
      find_range_n pt2 (construct pt2 [((0:ℤ),(0:ℤ))]) ((0:ℤ),(0:ℤ)) (-1) 0 = [] := by
  refine ⟨pt2_lawful, by simp, ?_⟩
  unfold construct
  rw [construct_part_singleton]
  decide

/-- C3 (amended): `find_range_n(q, eps)` returns exactly the multiset of
tree items within `eps` of the query; in particular the query point, when
present, is returned whenever `distance(q,q) ≤ eps` (so for every
non-negative epsilon). -/
theorem C3_find_range_exact (it : KdItem T M) (hl : KdLawful it)
    (items : List T) (q : T) (eps : M) :
    (↑(find_range_n it (construct it items) q eps 0) : Multiset T) =
        Multiset.filter (fun x => it.distance x q ≤ eps) (↑items : Multiset T) ∧
      (q ∈ items → it.distance q q ≤ eps →
        q ∈ find_range_n it (construct it items) q eps 0) := by
  refine ⟨find_range_spec hl items q eps, ?_⟩
  intro hq heps
  have hmul := find_range_spec hl items q eps
  have hmem : q ∈ (↑(find_range_n it (construct it items) q eps 0) : Multiset T) := by
    rw [hmul, Multiset.mem_filter]
    exact ⟨by exact_mod_cast hq, heps⟩
  exact_mod_cast hmem

/-- Witness for C3 at the lawful instance `pt2` on a concrete input. -/
theorem C3_witness :
    KdLawful pt2 ∧
      ((↑(find_range_n pt2 (construct pt2 [((0:ℤ),(0:ℤ)), ((5:ℤ),(5:ℤ))]) ((0:ℤ),(0:ℤ))
            (2:ℤ) 0) : Multiset (ℤ × ℤ)) =
          Multiset.filter (fun x => pt2.distance x ((0:ℤ),(0:ℤ)) ≤ (2:ℤ))
            (↑[((0:ℤ),(0:ℤ)), ((5:ℤ),(5:ℤ))] : Multiset (ℤ × ℤ)) ∧
        (((0:ℤ),(0:ℤ)) ∈ [((0:ℤ),(0:ℤ)), ((5:ℤ),(5:ℤ))] →
          pt2.distance ((0:ℤ),(0:ℤ)) ((0:ℤ),(0:ℤ)) ≤ (2:ℤ) →
          ((0:ℤ),(0:ℤ)) ∈ find_range_n pt2 (construct pt2 [((0:ℤ),(0:ℤ)), ((5:ℤ),(5:ℤ))])
            ((0:ℤ),(0:ℤ)) (2:ℤ) 0)) :=
  ⟨pt2_lawful, C3_find_range_exact pt2 pt2_lawful [((0:ℤ),(0:ℤ)), ((5:ℤ),(5:ℤ))]
    ((0:ℤ),(0:ℤ)) (2:ℤ)⟩

/-- C4 counterexample: two items equal on the splitting axis; the
constructed tree places one of them in the left subtree of the other, where
the depth-0 comparison is `Equal`, not `Less` as claimed. -/
theorem C4_counterexample :
    KdLawful pt2 ∧
      construct pt2 [((0:ℤ),(0:ℤ)), ((0:ℤ),(1:ℤ))] =
        Kdt.node ((0:ℤ),(1:ℤ)) (Kdt.node ((0:ℤ),(0:ℤ)) Kdt.empty Kdt.empty) Kdt.empty ∧
      ((0:ℤ),(0:ℤ)) ∈ treeItems (Kdt.node ((0:ℤ),(0:ℤ)) Kdt.empty Kdt.empty) ∧
      pt2.cmp_in_depth ((0:ℤ),(0:ℤ)) ((0:ℤ),(1:ℤ)) 0 = Ordering.eq := by
  refine ⟨pt2_lawful, ?_, by simp [treeItems], by decide⟩
  unfold construct
  rw [construct_part_pair]
  decide

/-- C4 (amended): for every constructed tree under the preconditions, items
of a left subtree compare `Less` or `Equal` (never `Greater`) to the node
item at the node's depth, and items of a right subtree compare `Equal` or
`Greater` (never `Less`). -/
theorem C4_tree_invariant (it : KdItem T M) (hl : KdLawful it)
    (items : List T) (d : Nat) :
    TreeInv it (construct_part it items d) d :=
  treeInv_construct_part hl items d

/-- Witness for C4 at the lawful instance `pt2` on a concrete input. -/
theorem C4_witness :
    KdLawful pt2 ∧
      TreeInv pt2 (construct_part pt2 [((0:ℤ),(0:ℤ)), ((0:ℤ),(1:ℤ)), ((3:ℤ),(4:ℤ))] 0) 0 :=
  ⟨pt2_lawful, C4_tree_invariant pt2 pt2_lawful _ 0⟩

/-- C5 counterexample: the claim says a 2-element slice splits into an
empty left subtree and a one-element right subtree; the code computes
`mid = 2 / 2 = 1`, so the left slice `S[0..1]` has one element and the
right slice `S[2..]` is empty — the opposite. -/
theorem C5_counterexample :
    (construct pt2 [((0:ℤ),(0:ℤ)), ((1:ℤ),(0:ℤ))]).leftChild ≠ Kdt.empty ∧
      (construct pt2 [((0:ℤ),(0:ℤ)), ((1:ℤ),(0:ℤ))]).rightChild = Kdt.empty := by
  have h : construct pt2 [((0:ℤ),(0:ℤ)), ((1:ℤ),(0:ℤ))] =
      Kdt.node ((1:ℤ),(0:ℤ)) (Kdt.node ((0:ℤ),(0:ℤ)) Kdt.empty Kdt.empty) Kdt.empty := by
    unfold construct
    rw [construct_part_pair]
    decide
  rw [h]
  exact ⟨by decide, rfl⟩

/-- C5 (amended): a slice of length at least 2 at depth `d` is sorted by the
depth-`d` comparison, the pivot is the sorted element at `mid = len / 2`,
the left subtree is built from the sorted prefix `S[0..mid]` and the right
subtree from `S[mid+1..]`; consequently a 2-element slice splits into a
one-element left subtree, the pivot, and an empty right subtree. -/
theorem C5_construct_split (it : KdItem T M) (hl : KdLawful it)
    (items : List T) (d : Nat) (h2 : 2 ≤ items.length) :
    List.Sorted (leD it d) (List.insertionSort (leD it d) items) ∧
      ∃ p right,
        (List.insertionSort (leD it d) items).drop (items.length / 2) = p :: right ∧
        construct_part it items d =
          Kdt.node p
            (construct_part it
              ((List.insertionSort (leD it d) items).take (items.length / 2)) (d + 1))
            (construct_part it right (d + 1)) ∧
        ((List.insertionSort (leD it d) items).take (items.length / 2)).length =
          items.length / 2 ∧
        (items.length = 2 →
          (∃ a, (List.insertionSort (leD it d) items).take (items.length / 2) = [a]) ∧
            right = []) := by
  refine ⟨sorted_leD hl d items, ?_⟩
  rcases items with _ | ⟨x, _ | ⟨y, rest⟩⟩
  · exact absurd h2 (by simp)
  · exact absurd h2 (by simp)
  · have hlen : (List.insertionSort (leD it d) (x :: y :: rest)).length =
        (x :: y :: rest).length := List.length_insertionSort _ _
    have hmidlt : (x :: y :: rest).length / 2 <
        (List.insertionSort (leD it d) (x :: y :: rest)).length := by
      rw [hlen]
      simp only [List.length_cons]
      omega
    have hdropne : (List.insertionSort (leD it d) (x :: y :: rest)).drop
        ((x :: y :: rest).length / 2) ≠ [] := by
      intro hc
      have := congrArg List.length hc
      rw [List.length_drop] at this
      simp only [List.length_nil] at this
      omega
    rcases hdp : (List.insertionSort (leD it d) (x :: y :: rest)).drop
        ((x :: y :: rest).length / 2) with _ | ⟨p, right⟩
    · exact absurd hdp hdropne
    refine ⟨p, right, rfl, ?_, ?_, ?_⟩
    · rw [construct_part]
      split
      · rename_i heq
        rw [hdp] at heq
        exact absurd heq (by simp)
      · rename_i p2 right2 heq
        rw [hdp] at heq
        injection heq with hh1 hh2
        subst hh1
        subst hh2
        rfl
    · rw [List.length_take, hlen]
      simp only [List.length_cons]
      exact Nat.min_eq_left (by omega)
    · intro hlen2
      have hmid1 : (x :: y :: rest).length / 2 = 1 := by
        rw [hlen2]
      constructor
      · have htlen : ((List.insertionSort (leD it d) (x :: y :: rest)).take
            ((x :: y :: rest).length / 2)).length = 1 := by
          rw [List.length_take, hlen, hmid1]
          simp only [List.length_cons]
          exact Nat.min_eq_left (by omega)
        rcases hts : (List.insertionSort (leD it d) (x :: y :: rest)).take
            ((x :: y :: rest).length / 2) with _ | ⟨a, tl⟩
        · rw [hts] at htlen
          simp at htlen
        · rw [hts] at htlen
          simp only [List.length_cons] at htlen
          have : tl = [] := List.length_eq_zero.1 (by omega)
          exact ⟨a, by rw [this]⟩
      · have := congrArg List.length hdp
        rw [List.length_drop, hlen, hmid1, hlen2] at this
        simp only [List.length_cons] at this
        exact List.length_eq_zero.1 (by omega)

/-- Witness for C5 at the lawful instance `pt2` on a concrete 2-element
input. -/
theorem C5_witness :
    KdLawful pt2 ∧ 2 ≤ ([((0:ℤ),(0:ℤ)), ((1:ℤ),(0:ℤ))] : List (ℤ × ℤ)).length ∧
      (List.Sorted (leD pt2 0)
          (List.insertionSort (leD pt2 0) [((0:ℤ),(0:ℤ)), ((1:ℤ),(0:ℤ))]) ∧
        ∃ p right,
          (List.insertionSort (leD pt2 0) [((0:ℤ),(0:ℤ)), ((1:ℤ),(0:ℤ))]).drop
              (([((0:ℤ),(0:ℤ)), ((1:ℤ),(0:ℤ))] : List (ℤ × ℤ)).length / 2) = p :: right ∧
          construct_part pt2 [((0:ℤ),(0:ℤ)), ((1:ℤ),(0:ℤ))] 0 =
            Kdt.node p
              (construct_part pt2
                ((List.insertionSort (leD pt2 0) [((0:ℤ),(0:ℤ)), ((1:ℤ),(0:ℤ))]).take
                  (([((0:ℤ),(0:ℤ)), ((1:ℤ),(0:ℤ))] : List (ℤ × ℤ)).length / 2)) (0 + 1))
              (construct_part pt2 right (0 + 1)) ∧
          ((List.insertionSort (leD pt2 0) [((0:ℤ),(0:ℤ)), ((1:ℤ),(0:ℤ))]).take
              (([((0:ℤ),(0:ℤ)), ((1:ℤ),(0:ℤ))] : List (ℤ × ℤ)).length / 2)).length =
            ([((0:ℤ),(0:ℤ)), ((1:ℤ),(0:ℤ))] : List (ℤ × ℤ)).length / 2 ∧
          (([((0:ℤ),(0:ℤ)), ((1:ℤ),(0:ℤ))] : List (ℤ × ℤ)).length = 2 →
            (∃ a, (List.insertionSort (leD pt2 0) [((0:ℤ),(0:ℤ)), ((1:ℤ),(0:ℤ))]).take
                (([((0:ℤ),(0:ℤ)), ((1:ℤ),(0:ℤ))] : List (ℤ × ℤ)).length / 2) = [a]) ∧
              right = [])) :=
  ⟨pt2_lawful, by simp, C5_construct_split pt2 pt2_lawful [((0:ℤ),(0:ℤ)), ((1:ℤ),(0:ℤ))] 0
    (by simp)⟩

/-- C6: once a position holds a cluster label, neither the rest of the
current expansion nor any later iteration of the main loop ever changes it:
both the worklist expansion and the remaining main loop map a state whose
labelled positions are visited (the invariant `DbInv`, which holds at every
reachable state) to a state with the same label at that position. -/
theorem C6_cluster_label_stable (jt : KdItem (Fin n × T) M) (tree : Kdt (Fin n × T))
    (eps : M) (min_items : Nat) (labels : Fin n → DbscanLabel)
    (visited : Fin n → Bool) (hinv : DbInv labels visited) (q : Fin n) (k : Nat)
    (hq : labels q = DbscanLabel.Cluster k) :
    (∀ cluster groups,
        (expand jt tree eps min_items cluster labels visited groups).1 q =
          DbscanLabel.Cluster k) ∧
      ∀ rest c, dbscanLoop jt tree eps min_items rest c labels visited q =
        DbscanLabel.Cluster k := by
  constructor
  · intro cluster groups
    obtain ⟨hstep, _⟩ := expand_spec jt tree eps min_items cluster labels visited groups hinv
    rcases hstep q with h | ⟨h1, _⟩
    · rw [h, hq]
    · rw [hq] at h1
      exact absurd h1 (by simp)
  · intro rest c
    exact dbscanLoop_preserves jt tree eps min_items rest c labels visited hinv q k hq

/-- Witness for C6: a 1-point state with the position already labelled. -/
theorem C6_witness :
    DbInv (fun _ : Fin 1 => DbscanLabel.Cluster 1) (fun _ => true) ∧
      (fun _ : Fin 1 => DbscanLabel.Cluster 1) 0 = DbscanLabel.Cluster 1 ∧
      ((∀ cluster groups,
          (expand (indexedItem pt2 1)
            (construct (indexedItem pt2 1) [((0 : Fin 1), ((0:ℤ),(0:ℤ)))]) (1:ℤ) 1 cluster
            (fun _ : Fin 1 => DbscanLabel.Cluster 1) (fun _ => true) groups).1 0 =
            DbscanLabel.Cluster 1) ∧
        ∀ rest c, dbscanLoop (indexedItem pt2 1)
            (construct (indexedItem pt2 1) [((0 : Fin 1), ((0:ℤ),(0:ℤ)))]) (1:ℤ) 1 rest c
            (fun _ : Fin 1 => DbscanLabel.Cluster 1) (fun _ => true) 0 =
          DbscanLabel.Cluster 1) :=
  ⟨fun _ _ => rfl, rfl,
    C6_cluster_label_stable (indexedItem pt2 1)
      (construct (indexedItem pt2 1) [((0 : Fin 1), ((0:ℤ),(0:ℤ)))]) (1:ℤ) 1
      (fun _ => DbscanLabel.Cluster 1) (fun _ => true) (fun _ _ => rfl) 0 1 rfl⟩

/-- C7: with `min_items ≥ 1`, the cluster ids appearing in the output of
`dbscan` form a contiguous range `{1, ..., K}` with no gaps; moreover id
assignment is monotone in encounter order: from counter `c`, any label the
remaining loop changes is set to a cluster id at least `c`. -/
theorem C7_cluster_ids_contiguous (it : KdItem T M) (items : List T) (eps : M)
    (min_items : Nat) (hmin : 1 ≤ min_items) :
    (∀ ls, dbscan it items eps min_items = some ls →
        ∃ K, idsOfList ls = Finset.Icc 1 K) ∧
      ∀ (m : Nat) (jt : KdItem (Fin m × T) M) (tree : Kdt (Fin m × T))
        (rest : List (Fin m × T)) (c : Nat) (labels : Fin m → DbscanLabel)
        (visited : Fin m → Bool) (q : Fin m), DbInv labels visited → c ≤ usizeMax →
        dbscanLoop jt tree eps min_items rest c labels visited q ≠ labels q →
        ∃ k, dbscanLoop jt tree eps min_items rest c labels visited q =
            DbscanLabel.Cluster k ∧ c ≤ k := by
  constructor
  · intro ls hls
    unfold dbscan at hls
    rw [if_neg (by omega)] at hls
    injection hls with hls2
    rw [← hls2, idsOfList_ofFn]
    have h1max : 1 ≤ usizeMax := by norm_num [usizeMax]
    refine dbscanLoop_ids _ _ eps min_items _ 1 _ _ 0 (fun i hi => absurd rfl hi)
      (by omega) ?_ ?_
    · have : idSetF (fun _ : Fin items.length => DbscanLabel.Noize) = (∅ : Finset Nat) := by
        ext k
        rw [mem_idSetF]
        simp
      rw [this]
      rw [Finset.Icc_eq_empty (by omega)]
    · rw [Nat.min_eq_left (by omega)]
  · intro m jt tree rest c labels visited q hinv hc hne
    exact dbscanLoop_mono jt tree eps min_items rest c labels visited q hinv hc hne

/-- Witness for C7 on a concrete clustered input. -/
theorem C7_witness :
    1 ≤ 2 ∧
      ((∀ ls, dbscan pt2 [((0:ℤ),(0:ℤ)), ((0:ℤ),(1:ℤ)), ((9:ℤ),(9:ℤ))] (1:ℤ) 2 = some ls →
          ∃ K, idsOfList ls = Finset.Icc 1 K) ∧
        ∀ (m : Nat) (jt : KdItem (Fin m × (ℤ × ℤ)) ℤ) (tree : Kdt (Fin m × (ℤ × ℤ)))
          (rest : List (Fin m × (ℤ × ℤ))) (c : Nat) (labels : Fin m → DbscanLabel)
          (visited : Fin m → Bool) (q : Fin m), DbInv labels visited → c ≤ usizeMax →
          dbscanLoop jt tree (1:ℤ) 2 rest c labels visited q ≠ labels q →
          ∃ k, dbscanLoop jt tree (1:ℤ) 2 rest c labels visited q =
              DbscanLabel.Cluster k ∧ c ≤ k) :=
  ⟨by omega, C7_cluster_ids_contiguous pt2 [((0:ℤ),(0:ℤ)), ((0:ℤ),(1:ℤ)), ((9:ℤ),(9:ℤ))]
    (1:ℤ) 2 (by omega)⟩

/-- C8: empty input degrades to empty results everywhere: the constructed
tree has no root, `find_nearest` returns `None` (no panic),
`find_nearest_n` returns the empty sequence for every `k` (no panic), and
`dbscan` with any epsilon and `min_items ≥ 1` returns the empty label
sequence (no panic). -/
theorem C8_empty_input (it : KdItem T M) (q : T) (k : Nat) (eps : M)
    (min_items : Nat) (hmin : 1 ≤ min_items) :
    construct it ([] : List T) = Kdt.empty ∧
      find_nearest it (construct it []) q = some none ∧
      find_nearest_n it (construct it []) q k = some [] ∧
      dbscan it [] eps min_items = some [] := by
  have h0 : construct it ([] : List T) = Kdt.empty := construct_part_nil it 0
  refine ⟨h0, ?_, ?_, ?_⟩
  · rw [h0]
    rfl
  · rw [h0]
    rfl
  · unfold dbscan
    rw [if_neg (by omega)]
    exact congrArg some (List.ofFn_zero _)

/-- Witness for C8 at the lawful instance `pt2`. -/
theorem C8_witness :
    1 ≤ 3 ∧
      (construct pt2 ([] : List (ℤ × ℤ)) = Kdt.empty ∧
        find_nearest pt2 (construct pt2 []) ((0:ℤ),(0:ℤ)) = some none ∧
        find_nearest_n pt2 (construct pt2 []) ((0:ℤ),(0:ℤ)) 5 = some [] ∧
        dbscan pt2 [] (1:ℤ) 3 = some []) :=
  ⟨by omega, C8_empty_input pt2 ((0:ℤ),(0:ℤ)) 5 (1:ℤ) 3 (by omega)⟩

/-- C9: calling `dbscan` with `min_items = 0` panics before any labelling,
because the worklist capacity `indexed_items.len() / min_items` divides by
zero; in the embedding the call returns `none` for every input and epsilon. -/
theorem C9_min_items_zero_panics (it : KdItem T M) (items : List T) (eps : M) :
    dbscan it items eps 0 = none := by
  unfold dbscan
  rw [if_pos rfl]

/-- C10: on a nonempty tree, `find_nearest_n(q, 0)` panics: the heap is
never pushed (capacity 0), so the first visited node reaches
`peek().expect("must exist")` on an empty heap; in the embedding the call
returns `none`. -/
theorem C10_find_nearest_n_zero_panics (it : KdItem T M) (items : List T) (q : T)
    (h : items ≠ []) :
    find_nearest_n it (construct it items) q 0 = none := by
  have hne := construct_part_ne_empty it h 0
  unfold construct
  rcases ht : construct_part it items 0 with _ | ⟨x, l, r⟩
  · exact absurd ht hne
  · unfold find_nearest_n
    have hstep : find_nearest_n_depth it 0 q (Kdt.node x l r) 0 [] = none := by
      simp only [find_nearest_n_depth]
      have hoffer : heapOffer 0 ([] : List (T × M)) (x, it.distance q x) = none := rfl
      rw [hoffer]
    rw [hstep]
    rfl

/-- Witness for C10 on a concrete singleton tree. -/
theorem C10_witness :
    ([((0:ℤ),(0:ℤ))] : List (ℤ × ℤ)) ≠ [] ∧
      find_nearest_n pt2 (construct pt2 [((0:ℤ),(0:ℤ))]) ((1:ℤ),(1:ℤ)) 0 = none :=
  ⟨by simp, C10_find_nearest_n_zero_panics pt2 [((0:ℤ),(0:ℤ))] ((1:ℤ),(1:ℤ)) (by simp)⟩

end KdDb
